import Mathlib

/-!
A shallow embedding of the raft "Linewise" broadcast-elementwise engine
(`cpp/include/raft/matrix/detail/linewise_op.cuh`) together with proofs about it.

Buffers are modelled as total functions `Int → α` indexed by scalar-element
offset from the buffer's base pointer (so out-of-range accesses are benign in
the model).  Device kernels are modelled by the list of `(index, value)` writes
each thread performs; a kernel's effect is obtained by applying all writes in
some (irrelevant, as proven) serialization order.  Index arithmetic performed
by C++ on the signed `IdxType` is modelled on `Int`, with `Int.tdiv`/`Int.tmod`
for C++ `/`/`%`; arithmetic performed on `uint` (grid sizing) is modelled on
`Nat`.  All loops are translated with explicit fuel so that every definition is
executable; the fuel supplied is proven sufficient where it matters.
-/

namespace RaftLinewise

/-- Apply a serialized list of writes to a buffer; later writes win. -/
def applyWrites {ι α : Type} [DecidableEq ι] (f : ι → α) : List (ι × α) → ι → α
  | [] => f
  | w :: ws => applyWrites (fun j => if j = w.1 then w.2 else f j) ws

/-- The while-loop `while (rowMod >= rowLen) { rowMod -= rowLen; rowDiv++; }`
of `Linewise::vectorCols`, with explicit fuel. -/
def normRowAux (rowLen : Int) : Nat → Int × Int → Int × Int
  | 0, s => s
  | fuel + 1, s =>
    if rowLen ≤ s.2 then normRowAux rowLen fuel (s.1 + 1, s.2 - rowLen) else s

/-- The renormalization of `(rowDiv, rowMod)` at the head of the main loop of
`Linewise::vectorCols`; the fuel `rowMod.toNat` is sufficient when
`1 ≤ rowLen`. -/
def normRow (rowLen d m : Int) : Int × Int := normRowAux rowLen m.toNat (d, m)

/-- The while-loop `while (j >= rowLen) j -= rowLen;` of `Linewise::loadVec`,
with explicit fuel. -/
def wrapAux (rowLen : Int) : Nat → Int → Int
  | 0, j => j
  | fuel + 1, j => if rowLen ≤ j then wrapAux rowLen fuel (j - rowLen) else j

/-- Wraparound of a vector index in `Linewise::loadVec`; the fuel `j.toNat` is
sufficient when `1 ≤ rowLen`. -/
def wrapJ (rowLen j : Int) : Int := wrapAux rowLen j.toNat j

/-- `raft::ceildiv` on the signed `IdxType` (`(a + b - 1) / b` with C++
truncated division). -/
def ceildivI (a b : Int) : Int := (a + b - 1).tdiv b

/-- `raft::ceildiv` instantiated at `uint`. -/
def ceildivN (a b : Nat) : Nat := (a + b - 1) / b

/-- Modelled from the spec: `Pow2<W>::roundUp` on a byte address (the header
`raft/pow2_utils.cuh` is not part of the sources); the nearest multiple of `W`
at or after `x`. -/
def roundUpB (W x : Nat) : Nat := (x + W - 1) / W * W

/-- Modelled from the spec: `Pow2<W>::roundDown` on a byte address; the nearest
multiple of `W` at or before `x`. -/
def roundDownB (W x : Nat) : Nat := x / W * W

/-- Modelled from the spec: `Pow2<W>::areSameAlignOffsets` on two byte
addresses; whether the two addresses have the same remainder modulo `W`. -/
def areSameAlignOffsets (W a b : Nat) : Prop := a % W = b % W

instance (W a b : Nat) : Decidable (areSameAlignOffsets W a b) := by
  unfold areSameAlignOffsets; infer_instance

/-- `alignedOff` of `matrixLinewiseVecCols`/`VecRows`: the element distance
from the input pointer (byte address `addr`, element size `s`) to
`AlignBytes::roundUp(in)`. -/
def alignedOffN (s W addr : Nat) : Nat := (roundUpB W addr - addr) / s

/-- `alignedEnd` of `matrixLinewiseVecCols`/`VecRows`: the (possibly negative)
element distance from the input pointer to `AlignBytes::roundDown(in + totalLen)`. -/
def alignedEndE (s W addr : Nat) (totalLen : Int) : Int :=
  ((roundDownB W (addr + s * totalLen.toNat) : Int) - (addr : Int)) / (s : Int)

/-- The compile-time recursion of `MatrixLinewiseOp::run` that halves
`VecBytes` while `VecBytes > sizeof(Type)` and the two pointers do not share
alignment offsets, with explicit fuel. -/
def chooseVecBytesAux (s a b : Nat) : Nat → Nat → Nat
  | 0, W => W
  | fuel + 1, W =>
    if s < W ∧ ¬areSameAlignOffsets W a b then
      chooseVecBytesAux s a b fuel (max (W / 2) s)
    else W

/-- The vector width `MatrixLinewiseOp::run` finally dispatches with, starting
from the configured `VecBytes = W0`; fuel `W0` is sufficient. -/
def chooseVecBytes (s a b W0 : Nat) : Nat := chooseVecBytesAux s a b W0 W0

/-- The unrolled inner `k`-loop of `Linewise::vectorCols`: processes `k`
scalars starting at flat position `pos`, threading `(rowDiv, rowMod, args)`;
returns the performed writes and the final state.  The cached `args` are
refreshed (after `rowDiv++`) whenever `rowMod` reaches `rowLen`. -/
def vectorColsInner {α : Type} (op : α → List α → α) (inF : Int → α)
    (vecs : List (Int → α)) (rowLen : Int) :
    Nat → Int → Int → Int → List α → List (Int × α) × (Int × Int × List α)
  | 0, _, d, m, args => ([], (d, m, args))
  | k + 1, pos, d, m, args =>
    if m = rowLen then
      let args2 := vecs.map fun v => v (d + 1)
      let r := vectorColsInner op inF vecs rowLen k (pos + 1) (d + 1) 1 args2
      ((pos, op (inF pos) args2) :: r.1, r.2)
    else
      let r := vectorColsInner op inF vecs rowLen k (pos + 1) d (m + 1) args
      ((pos, op (inF pos) args) :: r.1, r.2)

/-- The main loop of `Linewise::vectorCols` for one thread: each iteration
renormalizes `(rowDiv, rowMod)`, refreshes the cached vector values when the
`update` flag is set, processes one `VecElems`-wide chunk at `pos`, then
advances by `WarpSize * VecElems` scalars (adding the warp padding
`(WarpSize - 1) * VecElems` to `rowMod`). -/
def vectorColsLoop {α : Type} (op : α → List α → α) (inF : Int → α)
    (vecs : List (Int → α)) (rowLen : Int) (V : Nat) :
    Nat → Int → Int → Int → Int → List α → Bool → List (Int × α)
  | 0, _, _, _, _, _, _ => []
  | fuel + 1, pos, endPos, d, m, args, upd =>
    if pos < endPos then
      let dm := normRow rowLen d m
      let upd2 := upd || decide (rowLen ≤ m)
      let args2 := if upd2 then vecs.map fun v => v dm.1 else args
      let r := vectorColsInner op inF vecs rowLen V pos dm.1 dm.2 args2
      r.1 ++ vectorColsLoop op inF vecs rowLen V fuel (pos + 32 * (V : Int)) endPos
        r.2.1 (r.2.2.1 + 31 * (V : Int)) r.2.2.2 false
    else []

/-- One thread of `matrixLinewiseVecColsMainKernel`: computes its starting
offset `t` from its warp-blocked arrangement and runs `vectorCols` on
`[t, min(t + elemsPerThread * WarpSize, len))`. -/
def vecColsMainThread {α : Type} (op : α → List α → α) (inF : Int → α)
    (vecs : List (Int → α)) (rowLen : Int) (V BS : Nat)
    (arrOffset len ept : Int) (blk tid : Nat) : List (Int × α) :=
  let lane : Nat := tid % 32
  let t : Int := arrOffset + ept * ((blk * BS + tid - lane : Nat) : Int) + (lane : Int) * (V : Int)
  let endPos : Int := min (t + ept * 32) len
  vectorColsLoop op inF vecs rowLen V (endPos - t).toNat t endPos
    (t.tdiv rowLen) (t.tmod rowLen) [] true

/-- All writes of `matrixLinewiseVecColsMainKernel` over the whole grid. -/
def vecColsMainKernel {α : Type} (op : α → List α → α) (inF : Int → α)
    (vecs : List (Int → α)) (rowLen : Int) (V BS gs : Nat)
    (arrOffset len ept : Int) : List (Int × α) :=
  (List.range gs).flatMap fun blk => (List.range BS).flatMap fun tid =>
    vecColsMainThread op inF vecs rowLen V BS arrOffset len ept blk tid

/-- One thread of `matrixLinewiseVecColsTailKernel` (`VecElems = 1`): block 0
covers the head `[0, arrOffset)`, block 1 the tail starting at `arrTail`. -/
def vecColsTailThread {α : Type} (op : α → List α → α) (inF : Int → α)
    (vecs : List (Int → α)) (rowLen arrOffset arrTail len : Int)
    (blk tid : Nat) : List (Int × α) :=
  let tO : Int := if blk = 0 then (tid : Int) else arrTail + (tid : Int)
  let epw : Int := if blk = 0 then (if tO < arrOffset then 1 else 0)
                   else (if tO < len then 1 else 0)
  vectorColsLoop op inF vecs rowLen 1 epw.toNat tO (tO + epw)
    (tO.tdiv rowLen) (tO.tmod rowLen) [] true

/-- All writes of `matrixLinewiseVecColsTailKernel` (two blocks of `MaxOffset`
threads each). -/
def vecColsTailKernel {α : Type} (op : α → List α → α) (inF : Int → α)
    (vecs : List (Int → α)) (rowLen : Int) (M : Nat)
    (arrOffset arrTail len : Int) : List (Int × α) :=
  (List.range 2).flatMap fun blk => (List.range M).flatMap fun tid =>
    vecColsTailThread op inF vecs rowLen arrOffset arrTail len blk tid

/-- Host-side `matrixLinewiseVecCols`: computes the aligned region from the
input byte address, launches the main kernel on it when nonempty and the
two-block tail kernel when the matrix is not fully aligned.  Returns the final
output buffer and the number of kernel launches enqueued. -/
def matrixLinewiseVecCols {α : Type} (op : α → List α → α) (outF inF : Int → α)
    (vecs : List (Int → α)) (rowLen nRows : Int)
    (s W BS occupy addr : Nat) : (Int → α) × Nat :=
  let V : Nat := W / s
  let totalLen : Int := rowLen * nRows
  let aOff : Int := (alignedOffN s W addr : Nat)
  let aEnd : Int := alignedEndE s W addr totalLen
  let aLen : Int := aEnd - aOff
  let step1 : (Int → α) × Nat :=
    if 0 < aLen then
      let maxBlocks : Nat := ceildivN aLen.toNat (BS * V)
      let gs : Nat := min maxBlocks occupy
      let ept : Int := ceildivI aLen ((gs : Int) * (V : Int) * (BS : Int)) * (V : Int)
      (applyWrites outF (vecColsMainKernel op inF vecs rowLen V BS gs aOff aLen ept), 1)
    else (outF, 0)
  if aLen < totalLen then
    let M : Nat := max 32 W
    (applyWrites step1.1 (vecColsTailKernel op inF vecs rowLen M aOff aEnd totalLen),
     step1.2 + 1)
  else step1

/-- One thread's staging loop of `Linewise::loadVec`: writes the shared-memory
slots `k = tid, tid + BS, ...` below `V * BS`, tracking the wrapped vector
index `j`. -/
def loadVecStage {α : Type} (p : Int → α) (rowLen : Int) (BS : Nat) :
    Nat → Nat → Nat → Int → List (Nat × α)
  | 0, _, _, _ => []
  | fuel + 1, bound, k, j =>
    if k < bound then
      let j2 := wrapJ rowLen j
      (k, p j2) :: loadVecStage p rowLen BS fuel bound (k + BS) (j2 + BS)
    else []

/-- The shared-memory buffer after all `BS` threads of a block have staged a
vector slice in `Linewise::loadVec` and the block has synchronized; `shm0` is
the (irrelevant) initial contents. -/
def loadVecShm {α : Type} (shm0 : Nat → α) (p : Int → α) (rowLen : Int)
    (BS V : Nat) (blockOffset : Int) : Nat → α :=
  applyWrites shm0 ((List.range BS).flatMap fun tid =>
    loadVecStage p rowLen BS V (V * BS) tid (blockOffset + (tid : Int)))

/-- The wide chunk `Linewise::loadVec` returns to thread `tid`: the `V`
contiguous shared-memory scalars starting at slot `tid * V`. -/
def loadVec {α : Type} (shm0 : Nat → α) (p : Int → α) (rowLen : Int)
    (BS V : Nat) (blockOffset : Int) (tid : Nat) : Nat → α :=
  fun k => loadVecShm shm0 p rowLen BS V blockOffset (tid * V + k)

/-- The grid-stride loop of `Linewise::vectorRows` for one thread: `i` is a
wide-chunk index, `base` the scalar offset of chunk 0, `d = BlockSize * gridDim`
the stride; the register-cached vector chunks `chunks` are reused on every
iteration. -/
def vectorRowsLoop {α : Type} (op : α → List α → α) (inF : Int → α)
    (chunks : List (Nat → α)) (V : Nat) (base : Int) :
    Nat → Int → Int → Int → List (Int × α)
  | 0, _, _, _ => []
  | fuel + 1, i, lenWide, d =>
    if i < lenWide then
      ((List.range V).map fun (k : Nat) =>
        (base + i * (V : Int) + (k : Int),
         op (inF (base + i * (V : Int) + (k : Int))) (chunks.map fun c => c k)))
      ++ vectorRowsLoop op inF chunks V base fuel (i + d) lenWide d
    else []

/-- All writes of `matrixLinewiseVecRowsMainKernel`: each block loads its
vector chunks at `blockOffset = (arrOffset + BlockSize * VecElems * blockIdx) % rowLen`
through shared memory, then runs the striped `vectorRows` over the
`lenWide = alignedLen / VecElems` wide chunks based at scalar offset `arrOffset`. -/
def vecRowsMainKernel {α : Type} (op : α → List α → α) (inF : Int → α)
    (vecs : List (Int → α)) (rowLen : Int) (V BS gs : Nat)
    (arrOffset lenWide : Int) : List (Int × α) :=
  (List.range gs).flatMap fun blk => (List.range BS).flatMap fun tid =>
    let blockOffset : Int := (arrOffset + (BS : Int) * (V : Int) * (blk : Int)).tmod rowLen
    let chunks : List (Nat → α) :=
      vecs.map fun p => loadVec (fun _ => p 0) p rowLen BS V blockOffset tid
    let i0 : Int := (tid : Int) + (blk : Int) * (BS : Int)
    vectorRowsLoop op inF chunks V arrOffset (lenWide - i0).toNat i0 lenWide
      ((BS : Int) * (gs : Int))

/-- All writes of `matrixLinewiseVecRowsTailKernel` (`VecElems = 1`, two blocks
of `MaxOffset` threads): block 0 covers `[0, arrOffset)`; block 1 runs on
pointers shifted back by `MaxOffset` elements with length
`len - arrTail + MaxOffset`. -/
def vecRowsTailKernel {α : Type} (op : α → List α → α) (inF : Int → α)
    (vecs : List (Int → α)) (rowLen : Int) (M : Nat)
    (arrOffset arrTail len : Int) : List (Int × α) :=
  (List.range 2).flatMap fun blk => (List.range M).flatMap fun tid =>
    if blk = 0 then
      let chunks : List (Nat → α) :=
        vecs.map fun p => loadVec (fun _ => p 0) p rowLen M 1 0 tid
      vectorRowsLoop op inF chunks 1 0 (arrOffset - (tid : Int)).toNat (tid : Int)
        arrOffset (2 * (M : Int))
    else
      let chunks : List (Nat → α) :=
        vecs.map fun p => loadVec (fun _ => p 0) p rowLen M 1 (arrTail.tmod rowLen) tid
      vectorRowsLoop op inF chunks 1 (arrTail - (M : Int))
        ((len - arrTail + (M : Int)) - ((tid : Int) + (M : Int))).toNat
        ((tid : Int) + (M : Int)) (len - arrTail + (M : Int)) (2 * (M : Int))

/-- Modelled from the spec: `raft::gcd` (not part of the sources) is the
ordinary greatest common divisor on `uint`. -/
def raftGcd (a b : Nat) : Nat := Nat.gcd a b

/-- The grid size `matrixLinewiseVecRows` computes for the main (striped)
kernel (`uint` arithmetic): the minimum of `ceildiv(totalLen, blockWorkSize)`
and the occupancy target rounded up to a multiple of
`expected_grid_size = rowLen / gcd(blockWorkSize, rowLen)`. -/
def vecRowsGridSize (BS V occupy rowLenN totalLenN : Nat) : Nat :=
  let bws : Nat := BS * V
  let egs : Nat := rowLenN / raftGcd bws rowLenN
  min (ceildivN totalLenN bws) (ceildivN occupy egs * egs)

/-- Host-side `matrixLinewiseVecRows`: computes the aligned region, launches
the striped main kernel on it when nonempty (with the GCD-based grid size) and
the two-block tail kernel when the matrix is not fully aligned.  Returns the
final output buffer and the number of kernel launches enqueued. -/
def matrixLinewiseVecRows {α : Type} (op : α → List α → α) (outF inF : Int → α)
    (vecs : List (Int → α)) (rowLen nRows : Int)
    (s W BS occupy addr : Nat) : (Int → α) × Nat :=
  let V : Nat := W / s
  let totalLen : Int := rowLen * nRows
  let aOff : Int := (alignedOffN s W addr : Nat)
  let aEnd : Int := alignedEndE s W addr totalLen
  let aLen : Int := aEnd - aOff
  let step1 : (Int → α) × Nat :=
    if 0 < aLen then
      let gs : Nat := vecRowsGridSize BS V occupy rowLen.toNat totalLen.toNat
      (applyWrites outF (vecRowsMainKernel op inF vecs rowLen V BS gs aOff
        (aLen / (V : Int))), 1)
    else (outF, 0)
  if aLen < totalLen then
    let M : Nat := max 32 W
    (applyWrites step1.1 (vecRowsTailKernel op inF vecs rowLen M aOff aEnd totalLen),
     step1.2 + 1)
  else step1

/-- `MatrixLinewiseOp::run`: narrows the vector width from the configured 16
bytes until the input and output byte addresses share alignment offsets (or
scalar width is reached), then dispatches on the broadcast axis. -/
def MatrixLinewiseOp.run {α : Type} (op : α → List α → α) (outF inF : Int → α)
    (vecs : List (Int → α)) (rowLen nRows : Int) (alongLines : Bool)
    (s addrIn addrOut BS occupy : Nat) : (Int → α) × Nat :=
  let W : Nat := chooseVecBytes s addrIn addrOut 16
  if alongLines then
    matrixLinewiseVecRows op outF inF vecs rowLen nRows s W BS occupy addrIn
  else
    matrixLinewiseVecCols op outF inF vecs rowLen nRows s W BS occupy addrIn

/-- The mathematical specification: `out[i] = op(in[i], vec_k[index_k(i)]...)`
where the vector index is `i % rowLen` along lines and `i / rowLen` across
lines. -/
def linewiseSpec {α : Type} (op : α → List α → α) (inF : Int → α)
    (vecs : List (Int → α)) (rowLen : Int) (alongLines : Bool) (i : Int) : α :=
  op (inF i) (vecs.map fun v => v (if alongLines then i % rowLen else i / rowLen))

/-! ### Basic lemmas about serialized writes -/

theorem applyWrites_append {ι α : Type} [DecidableEq ι] (ws1 ws2 : List (ι × α))
    (f : ι → α) : applyWrites f (ws1 ++ ws2) = applyWrites (applyWrites f ws1) ws2 := by
  induction ws1 generalizing f with
  | nil => rfl
  | cons w ws ih =>
    simp only [List.cons_append, applyWrites]
    exact ih _

theorem applyWrites_eq_of_forall_ne {ι α : Type} [DecidableEq ι] {ws : List (ι × α)}
    {j : ι} (h : ∀ w ∈ ws, w.1 ≠ j) (f : ι → α) : applyWrites f ws j = f j := by
  induction ws generalizing f with
  | nil => rfl
  | cons w ws ih =>
    rw [applyWrites, ih (fun u hu => h u (List.mem_cons_of_mem w hu))]
    exact if_neg fun hj => h w (List.mem_cons_self w ws) hj.symm

theorem applyWrites_eq_of_mem {ι α : Type} [DecidableEq ι] {ws : List (ι × α)}
    {j : ι} {a : α} (hall : ∀ w ∈ ws, w.1 = j → w.2 = a)
    (hmem : ∃ w ∈ ws, w.1 = j) (f : ι → α) : applyWrites f ws j = a := by
  induction ws generalizing f with
  | nil => exact absurd hmem (by simp)
  | cons w ws ih =>
    by_cases hex : ∃ u ∈ ws, u.1 = j
    · exact ih (fun u hu => hall u (List.mem_cons_of_mem w hu)) hex _
    · have hne : ∀ u ∈ ws, u.1 ≠ j := fun u hu hj => hex ⟨u, hu, hj⟩
      rw [applyWrites, applyWrites_eq_of_forall_ne hne]
      obtain ⟨u, hu, hj⟩ := hmem
      rcases List.mem_cons.mp hu with rfl | hu2
      · rw [if_pos hj.symm]
        exact hall u (List.mem_cons_self u ws) hj
      · exact absurd hj (hne u hu2)

/-! ### The renormalization and wraparound while-loops -/

theorem normRowAux_spec {L : Int} (hL : 1 ≤ L) :
    ∀ (fuel : Nat) (d m : Int), 0 ≤ m → m.toNat ≤ fuel →
      normRowAux L fuel (d, m) = (d + m / L, m % L) := by
  intro fuel
  induction fuel with
  | zero =>
    intro d m hm hf
    have hm0 : m = 0 := by omega
    subst hm0
    simp [normRowAux]
  | succ n ih =>
    intro d m hm hf
    rw [normRowAux]
    by_cases hcase : L ≤ m
    · rw [if_pos hcase, ih (d + 1) (m - L) (by omega) (by omega)]
      have hL0 : L ≠ 0 := by omega
      have h1 : (m - L + 1 * L) / L = (m - L) / L + 1 := Int.add_mul_ediv_right _ _ hL0
      have h2 : (m - L + 1 * L) % L = (m - L) % L := Int.add_mul_emod_self
      have h3 : m - L + 1 * L = m := by ring
      rw [h3] at h1 h2
      rw [Prod.ext_iff]
      constructor
      · simp only []
        omega
      · simp only []
        omega
    · rw [if_neg hcase]
      have h1 : m / L = 0 := Int.ediv_eq_zero_of_lt hm (by omega)
      have h2 : m % L = m := Int.emod_eq_of_lt hm (by omega)
      rw [h1, h2, add_zero]

theorem normRow_spec {L : Int} (hL : 1 ≤ L) (d m : Int) (hm : 0 ≤ m) :
    normRow L d m = (d + m / L, m % L) :=
  normRowAux_spec hL m.toNat d m hm le_rfl

theorem wrapAux_spec {L : Int} (hL : 1 ≤ L) :
    ∀ (fuel : Nat) (j : Int), 0 ≤ j → j.toNat ≤ fuel → wrapAux L fuel j = j % L := by
  intro fuel
  induction fuel with
  | zero =>
    intro j hj hf
    have hj0 : j = 0 := by omega
    subst hj0
    simp [wrapAux]
  | succ n ih =>
    intro j hj hf
    rw [wrapAux]
    by_cases hcase : L ≤ j
    · rw [if_pos hcase, ih (j - L) (by omega) (by omega)]
      have hL0 : L ≠ 0 := by omega
      have h2 : (j - L + 1 * L) % L = (j - L) % L := Int.add_mul_emod_self
      have h3 : j - L + 1 * L = j := by ring
      rw [h3] at h2
      omega
    · rw [if_neg hcase]
      exact (Int.emod_eq_of_lt hj (by omega)).symm

theorem wrapJ_spec {L : Int} (hL : 1 ≤ L) (j : Int) (hj : 0 ≤ j) :
    wrapJ L j = j % L :=
  wrapAux_spec hL j.toNat j hj le_rfl

/-! ### Ceiling division and power-of-two rounding -/

theorem ceildivN_mul_ge (a : Nat) {b : Nat} (hb : 1 ≤ b) : a ≤ ceildivN a b * b := by
  unfold ceildivN
  have h1 := Nat.div_add_mod (a + b - 1) b
  rw [Nat.mul_comm] at h1
  have h2 := Nat.mod_lt (a + b - 1) (show 0 < b by omega)
  omega

theorem ceildivN_pos {a b : Nat} (ha : 1 ≤ a) (hb : 1 ≤ b) : 1 ≤ ceildivN a b := by
  unfold ceildivN
  rw [Nat.one_le_div_iff (by omega)]
  omega

theorem ceildivI_mul_ge {a b : Int} (ha : 0 ≤ a) (hb : 1 ≤ b) : a ≤ ceildivI a b * b := by
  unfold ceildivI
  rw [Int.tdiv_eq_ediv (by omega) (by omega)]
  have h1 := Int.ediv_add_emod (a + b - 1) b
  rw [Int.mul_comm] at h1
  have h2 := Int.emod_lt_of_pos (a + b - 1) (show (0:Int) < b by omega)
  omega

theorem ceildivI_pos {a b : Int} (ha : 1 ≤ a) (hb : 1 ≤ b) : 1 ≤ ceildivI a b := by
  unfold ceildivI
  rw [Int.tdiv_eq_ediv (by omega) (by omega)]
  rw [Int.le_ediv_iff_mul_le (show (0:Int) < b by omega)]
  omega


theorem ceildivI_nonneg {a b : Int} (ha : 0 ≤ a) (hb : 1 ≤ b) : 0 ≤ ceildivI a b := by
  unfold ceildivI
  rw [Int.tdiv_eq_ediv (by omega) (by omega)]
  exact Int.ediv_nonneg (by omega) (by omega)

theorem roundUpB_ge (W x : Nat) (hW : 1 ≤ W) : x ≤ roundUpB W x := by
  unfold roundUpB
  have h1 := Nat.div_add_mod (x + W - 1) W
  rw [Nat.mul_comm] at h1
  have h2 := Nat.mod_lt (x + W - 1) (show 0 < W by omega)
  omega

theorem roundUpB_lt (W x : Nat) (hW : 1 ≤ W) : roundUpB W x < x + W := by
  unfold roundUpB
  have h1 := Nat.div_mul_le_self (x + W - 1) W
  omega

theorem roundUpB_dvd (W x : Nat) : W ∣ roundUpB W x := dvd_mul_left W _

theorem roundDownB_le (W x : Nat) : roundDownB W x ≤ x := Nat.div_mul_le_self x W

theorem roundDownB_gt (W x : Nat) (hW : 1 ≤ W) : x < roundDownB W x + W := by
  unfold roundDownB
  have h1 := Nat.div_add_mod x W
  rw [Nat.mul_comm] at h1
  have h2 := Nat.mod_lt x (show 0 < W by omega)
  omega

theorem roundDownB_dvd (W x : Nat) : W ∣ roundDownB W x := dvd_mul_left W _

/-! ### The width-narrowing recursion of `MatrixLinewiseOp::run` -/

theorem dvd16_cases {n : Nat} (h : n ∣ 16) :
    n = 1 ∨ n = 2 ∨ n = 4 ∨ n = 8 ∨ n = 16 := by
  have h1 : 0 < n := Nat.pos_of_dvd_of_pos h (by norm_num)
  have h2 : n ≤ 16 := Nat.le_of_dvd (by norm_num) h
  interval_cases n <;> revert h <;> decide

theorem chooseVecBytesAux_spec (a b : Nat) :
    ∀ (fuel s W : Nat), 1 ≤ s → s ∣ W → W ∣ 16 → W ≤ fuel →
      s ∣ chooseVecBytesAux s a b fuel W ∧ chooseVecBytesAux s a b fuel W ∣ 16 ∧
      (chooseVecBytesAux s a b fuel W = s ∨
        a % chooseVecBytesAux s a b fuel W = b % chooseVecBytesAux s a b fuel W) := by
  intro fuel
  induction fuel with
  | zero =>
    intro s W hs hsW hW16 hWf
    have : 0 < W := Nat.pos_of_dvd_of_pos hW16 (by norm_num)
    omega
  | succ f ih =>
    intro s W hs hsW hW16 hWf
    rw [chooseVecBytesAux]
    by_cases hc : s < W ∧ ¬areSameAlignOffsets W a b
    · rw [if_pos hc]
      have hlt := hc.1
      have hs16 : s ∣ 16 := hsW.trans hW16
      have key1 : s ∣ max (W / 2) s ∧ max (W / 2) s ∣ 16 := by
        rcases dvd16_cases hW16 with rfl | rfl | rfl | rfl | rfl <;>
          rcases dvd16_cases hs16 with rfl | rfl | rfl | rfl | rfl <;>
          revert hlt <;> decide
      have key2 : max (W / 2) s ≤ f := by
        have h1 : W / 2 < W := Nat.div_lt_self (by omega) one_lt_two
        have h2 : max (W / 2) s < W := max_lt h1 hlt
        omega
      exact ih s (max (W / 2) s) hs key1.1 key1.2 key2
    · rw [if_neg hc]
      refine ⟨hsW, hW16, ?_⟩
      by_cases hlt : s < W
      · right
        have : areSameAlignOffsets W a b := by tauto
        exact this
      · left
        have : s ≤ W := Nat.le_of_dvd (Nat.pos_of_dvd_of_pos hW16 (by norm_num)) hsW
        omega

theorem chooseVecBytes_spec {s : Nat} (a b : Nat) (hs : 1 ≤ s) (hs16 : s ∣ 16) :
    s ∣ chooseVecBytes s a b 16 ∧ chooseVecBytes s a b 16 ∣ 16 ∧
    (chooseVecBytes s a b 16 = s ∨
      a % chooseVecBytes s a b 16 = b % chooseVecBytes s a b 16) :=
  chooseVecBytesAux_spec a b 16 s 16 hs hs16 dvd_rfl le_rfl

/-! ### Properties of the aligned-region boundaries -/

theorem alignedOffN_mul {s W addr : Nat} (hsW : s ∣ W) (haddr : s ∣ addr) :
    alignedOffN s W addr * s = roundUpB W addr - addr := by
  unfold alignedOffN
  exact Nat.div_mul_cancel (Nat.dvd_sub' (hsW.trans (roundUpB_dvd W addr)) haddr)

theorem alignedOffN_lt {s W addr : Nat} (hs : 1 ≤ s) (hW : 1 ≤ W)
    (hsW : s ∣ W) (haddr : s ∣ addr) : alignedOffN s W addr < W / s := by
  have h1 := alignedOffN_mul hsW haddr
  have h2 : roundUpB W addr < addr + W := roundUpB_lt W addr hW
  have h3 : W / s * s = W := Nat.div_mul_cancel hsW
  have h4 : alignedOffN s W addr * s < W / s * s := by omega
  exact Nat.lt_of_mul_lt_mul_right h4

theorem alignedEndE_mul {s W addr : Nat} (T : Int) (hsW : s ∣ W) (haddr : s ∣ addr) :
    alignedEndE s W addr T * (s : Int)
      = (roundDownB W (addr + s * T.toNat) : Int) - (addr : Int) := by
  unfold alignedEndE
  apply Int.ediv_mul_cancel
  have h1 : (s : Int) ∣ (roundDownB W (addr + s * T.toNat) : Int) :=
    Int.natCast_dvd_natCast.mpr (hsW.trans (roundDownB_dvd _ _))
  have h2 : (s : Int) ∣ (addr : Int) := Int.natCast_dvd_natCast.mpr haddr
  exact dvd_sub h1 h2

theorem alignedEndE_le {s W addr : Nat} {T : Int} (hT : 0 ≤ T) (hs : 1 ≤ s)
    (hsW : s ∣ W) (haddr : s ∣ addr) : alignedEndE s W addr T ≤ T := by
  have h1 := alignedEndE_mul T hsW haddr
  have h2 : roundDownB W (addr + s * T.toNat) ≤ addr + s * T.toNat :=
    roundDownB_le _ _
  have h3 : ((T.toNat : Int)) = T := Int.toNat_of_nonneg hT
  have h4 : alignedEndE s W addr T * (s : Int) ≤ T * (s : Int) := by
    rw [h1]
    have h5 : ((roundDownB W (addr + s * T.toNat) : Nat) : Int)
        ≤ ((addr + s * T.toNat : Nat) : Int) := by exact_mod_cast h2
    push_cast at h5 ⊢
    nlinarith [h3]
  exact le_of_mul_le_mul_right h4 (by omega)

theorem alignedEndE_tail_lt {s W addr : Nat} {T : Int} (hT : 0 ≤ T) (hs : 1 ≤ s)
    (hW : 1 ≤ W) (hsW : s ∣ W) (haddr : s ∣ addr) :
    T - alignedEndE s W addr T < ((W / s : Nat) : Int) := by
  have h1 := alignedEndE_mul T hsW haddr
  have h2 : addr + s * T.toNat < roundDownB W (addr + s * T.toNat) + W :=
    roundDownB_gt W _ hW
  have h3 : ((T.toNat : Int)) = T := Int.toNat_of_nonneg hT
  have h4 : (W / s * s : Nat) = W := Nat.div_mul_cancel hsW
  have h5 : (T - alignedEndE s W addr T) * (s : Int) < ((W / s : Nat) : Int) * (s : Int) := by
    have h6 : ((addr + s * T.toNat : Nat) : Int)
        < ((roundDownB W (addr + s * T.toNat) : Nat) : Int) + (W : Int) := by
      exact_mod_cast h2
    have h7 : ((W / s * s : Nat) : Int) = (W : Int) := by exact_mod_cast h4
    push_cast at h6 h7 ⊢
    nlinarith [h1, h3]
  exact lt_of_mul_lt_mul_right h5 (by positivity)

theorem alignedLen_dvd {s W addr : Nat} (T : Int) (hs : 1 ≤ s) (hW : 1 ≤ W)
    (hsW : s ∣ W) (haddr : s ∣ addr) :
    ((W / s : Nat) : Int) ∣ (alignedEndE s W addr T - (alignedOffN s W addr : Int)) := by
  have h1 := alignedEndE_mul T hsW haddr
  have h2 := alignedOffN_mul hsW haddr
  have h3 : addr ≤ roundUpB W addr := roundUpB_ge W addr hW
  have h4 : (alignedEndE s W addr T - (alignedOffN s W addr : Int)) * (s : Int)
      = (roundDownB W (addr + s * T.toNat) : Int) - (roundUpB W addr : Int) := by
    have h5 : ((alignedOffN s W addr * s : Nat) : Int)
        = ((roundUpB W addr - addr : Nat) : Int) := by exact_mod_cast h2
    push_cast at h5
    rw [Nat.cast_sub h3] at h5
    nlinarith [h1]
  have h6 : (W : Int) ∣ (roundDownB W (addr + s * T.toNat) : Int) - (roundUpB W addr : Int) :=
    dvd_sub (Int.natCast_dvd_natCast.mpr (roundDownB_dvd _ _))
      (Int.natCast_dvd_natCast.mpr (roundUpB_dvd _ _))
  have h7 : ((W / s : Nat) : Int) * (s : Int) ∣
      (alignedEndE s W addr T - (alignedOffN s W addr : Int)) * (s : Int) := by
    rw [h4]
    have h8 : ((W / s : Nat) : Int) * (s : Int) = (W : Int) := by
      exact_mod_cast Nat.div_mul_cancel hsW
    rw [h8]
    exact h6
  exact (mul_dvd_mul_iff_right (show (s : Int) ≠ 0 by omega)).mp h7

/-! ### Characterization of the `vectorCols` device loops -/

theorem range_map_shift {β : Type} (f : Int → β) (pos : Int) (n : Nat) :
    f pos :: (List.range n).map (fun (j : Nat) => f (pos + 1 + (j : Int)))
      = (List.range (n + 1)).map (fun (j : Nat) => f (pos + (j : Int))) := by
  rw [List.range_succ_eq_map]
  simp only [List.map_cons, List.map_map]
  congr 1
  · norm_num
  · apply List.map_congr_left
    intro j _
    simp only [Function.comp_apply]
    congr 1
    push_cast
    ring

theorem vectorColsInner_fst {α : Type} (op : α → List α → α) (inF : Int → α)
    (vecs : List (Int → α)) (L : Int) :
    ∀ (k : Nat) (pos d m : Int) (args : List α),
      (vectorColsInner op inF vecs L k pos d m args).1.map Prod.fst
        = (List.range k).map (fun (j : Nat) => pos + (j : Int)) := by
  intro k
  induction k with
  | zero => intro pos d m args; simp [vectorColsInner]
  | succ n ih =>
    intro pos d m args
    rw [vectorColsInner]
    by_cases hm : m = L
    · rw [if_pos hm]
      simp only [List.map_cons]
      rw [ih]
      exact range_map_shift (fun x => x) pos n
    · rw [if_neg hm]
      simp only [List.map_cons]
      rw [ih]
      exact range_map_shift (fun x => x) pos n

theorem vectorColsInner_spec {α : Type} (op : α → List α → α) (inF : Int → α)
    (vecs : List (Int → α)) {L : Int} (hL : 1 ≤ L) :
    ∀ (k : Nat) (pos d m : Int) (args : List α), 0 ≤ m → m ≤ L → d * L + m = pos →
      (m < L → args = vecs.map fun v => v d) →
      (vectorColsInner op inF vecs L k pos d m args).1
          = (List.range k).map (fun (j : Nat) => (pos + (j : Int),
              op (inF (pos + (j : Int))) (vecs.map fun v => v ((pos + (j : Int)) / L)))) ∧
      0 ≤ (vectorColsInner op inF vecs L k pos d m args).2.2.1 ∧
      (vectorColsInner op inF vecs L k pos d m args).2.2.1 ≤ L ∧
      (vectorColsInner op inF vecs L k pos d m args).2.1 * L
          + (vectorColsInner op inF vecs L k pos d m args).2.2.1 = pos + (k : Int) ∧
      ((vectorColsInner op inF vecs L k pos d m args).2.2.1 < L →
        (vectorColsInner op inF vecs L k pos d m args).2.2.2
          = vecs.map fun v => v (vectorColsInner op inF vecs L k pos d m args).2.1) := by
  have hL0 : L ≠ 0 := by omega
  intro k
  induction k with
  | zero =>
    intro pos d m args hm0 hmL hsum hargs
    refine ⟨by simp [vectorColsInner], hm0, hmL, ?_, hargs⟩
    show d * L + m = pos + ((0 : Nat) : Int)
    push_cast
    omega
  | succ n ih =>
    intro pos d m args hm0 hmL hsum hargs
    rw [vectorColsInner]
    by_cases hm : m = L
    · rw [if_pos hm]
      dsimp only
      have hpos : pos = (d + 1) * L := by rw [← hsum, hm]; ring
      have hdiv : pos / L = d + 1 := by rw [hpos]; exact Int.mul_ediv_cancel _ hL0
      obtain ⟨hlist, h0, h1, h2, h3⟩ :=
        ih (pos + 1) (d + 1) 1 (vecs.map fun v => v (d + 1)) (by omega) hL
          (by linear_combination -hpos) (fun _ => rfl)
      refine ⟨?_, h0, h1, ?_, h3⟩
      · rw [hlist]
        have hhead : (pos, op (inF pos) (vecs.map fun v => v (d + 1)))
            = (pos, op (inF pos) (vecs.map fun v => v (pos / L))) := by rw [hdiv]
        rw [hhead]
        exact range_map_shift (fun x => (x, op (inF x) (vecs.map fun v => v (x / L)))) pos n
      · rw [h2]
        push_cast
        ring
    · rw [if_neg hm]
      dsimp only
      have hmlt : m < L := lt_of_le_of_ne hmL hm
      have hargs2 : args = vecs.map fun v => v d := hargs hmlt
      have hdiv : pos / L = d := by
        rw [← hsum, add_comm, Int.add_mul_ediv_right _ _ hL0,
          Int.ediv_eq_zero_of_lt hm0 hmlt, zero_add]
      obtain ⟨hlist, h0, h1, h2, h3⟩ :=
        ih (pos + 1) d (m + 1) args (by omega) (by omega) (by omega)
          (fun _ => hargs2)
      refine ⟨?_, h0, h1, ?_, h3⟩
      · rw [hlist, hargs2]
        have hhead : (pos, op (inF pos) (vecs.map fun v => v d))
            = (pos, op (inF pos) (vecs.map fun v => v (pos / L))) := by rw [hdiv]
        rw [hhead]
        exact range_map_shift (fun x => (x, op (inF x) (vecs.map fun v => v (x / L)))) pos n
      · rw [h2]
        push_cast
        ring

theorem vectorColsLoop_fst {α : Type} (op : α → List α → α) (inF : Int → α)
    (vecs : List (Int → α)) (L : Int) (V : Nat) :
    ∀ (fuel : Nat) (pos e d m : Int) (args : List α) (upd : Bool),
      ∀ w ∈ vectorColsLoop op inF vecs L V fuel pos e d m args upd,
        ∃ n j : Nat, j < V ∧ w.1 = pos + 32 * (V : Int) * (n : Int) + (j : Int)
          ∧ pos + 32 * (V : Int) * (n : Int) < e := by
  intro fuel
  induction fuel with
  | zero => intro pos e d m args upd w hw; simp [vectorColsLoop] at hw
  | succ f ih =>
    intro pos e d m args upd w hw
    rw [vectorColsLoop] at hw
    by_cases hpe : pos < e
    · rw [if_pos hpe] at hw
      rcases List.mem_append.mp hw with h1 | h2
      · have hfst : w.1 ∈ ((vectorColsInner op inF vecs L V pos (normRow L d m).1
            (normRow L d m).2 (if (upd || decide (L ≤ m)) = true
              then vecs.map fun v => v (normRow L d m).1 else args)).1).map Prod.fst :=
          List.mem_map_of_mem Prod.fst h1
        rw [vectorColsInner_fst] at hfst
        simp only [List.mem_map, List.mem_range] at hfst
        obtain ⟨j, hj, hjeq⟩ := hfst
        refine ⟨0, j, hj, ?_, ?_⟩
        · rw [← hjeq]; push_cast; ring
        · push_cast; simpa using hpe
      · obtain ⟨n, j, hj, hjeq, hlt⟩ := ih _ _ _ _ _ _ w h2
        refine ⟨n + 1, j, hj, ?_, ?_⟩
        · rw [hjeq]; push_cast; ring
        · have hx : pos + 32 * (V : Int) * (((n : Nat) + 1 : Nat) : Int)
              = (pos + 32 * (V : Int)) + 32 * (V : Int) * ((n : Nat) : Int) := by
            push_cast; ring
          rw [hx]; exact hlt
    · rw [if_neg hpe] at hw
      simp at hw

theorem vectorColsLoop_writes {α : Type} (op : α → List α → α) (inF : Int → α)
    (vecs : List (Int → α)) {L : Int} (hL : 1 ≤ L) (V : Nat) :
    ∀ (fuel : Nat) (pos e d m : Int) (args : List α) (upd : Bool),
      0 ≤ m → d * L + m = pos → (upd = false → m < L → args = vecs.map fun v => v d) →
      ∀ w ∈ vectorColsLoop op inF vecs L V fuel pos e d m args upd,
        w.2 = op (inF w.1) (vecs.map fun v => v (w.1 / L)) := by
  have hL0 : L ≠ 0 := by omega
  intro fuel
  induction fuel with
  | zero => intro pos e d m args upd _ _ _ w hw; simp [vectorColsLoop] at hw
  | succ f ih =>
    intro pos e d m args upd hm0 hsum hargs w hw
    rw [vectorColsLoop] at hw
    by_cases hpe : pos < e
    · rw [if_pos hpe] at hw
      rw [normRow_spec hL d m hm0] at hw
      dsimp only at hw
      have hargs2 : (if (upd || decide (L ≤ m)) = true
          then vecs.map fun v => v (d + m / L) else args)
          = vecs.map fun v => v (d + m / L) := by
        by_cases hu : (upd || decide (L ≤ m)) = true
        · rw [if_pos hu]
        · rw [if_neg hu]
          simp only [Bool.or_eq_true, decide_eq_true_eq, not_or, not_le] at hu
          have hmlt : m < L := hu.2
          rw [hargs (by simpa using hu.1) hmlt, Int.ediv_eq_zero_of_lt hm0 hmlt, add_zero]
      rw [hargs2] at hw
      have hm2 : 0 ≤ m % L := Int.emod_nonneg m hL0
      have hm2L : m % L < L := Int.emod_lt_of_pos m (by omega)
      have hsum2 : (d + m / L) * L + m % L = pos := by
        have hx := Int.ediv_add_emod m L
        linear_combination hsum + hx
      obtain ⟨hlist, h0, h1, h2, h3⟩ :=
        vectorColsInner_spec op inF vecs hL V pos (d + m / L) (m % L)
          (vecs.map fun v => v (d + m / L)) hm2 (le_of_lt hm2L) hsum2 (fun _ => rfl)
      rcases hres : vectorColsInner op inF vecs L V pos (d + m / L) (m % L)
          (vecs.map fun v => v (d + m / L)) with ⟨ws1, d3, m3, args3⟩
      rw [hres] at hlist h0 h1 h2 h3 hw
      dsimp only at hlist h0 h1 h2 h3 hw
      rcases List.mem_append.mp hw with hin | hrec
      · rw [hlist] at hin
        simp only [List.mem_map, List.mem_range] at hin
        obtain ⟨j, _, hjeq⟩ := hin
        rw [← hjeq]
      · have h31 : (0 : Int) ≤ 31 * (V : Int) := by positivity
        exact ih (pos + 32 * (V : Int)) e d3 (m3 + 31 * (V : Int)) args3 false
          (by omega) (by push_cast at h2 ⊢; omega)
          (fun _ hlt => h3 (by omega)) w hrec
    · rw [if_neg hpe] at hw
      simp at hw

theorem vectorColsLoop_covers {α : Type} (op : α → List α → α) (inF : Int → α)
    (vecs : List (Int → α)) (L : Int) {V : Nat} (hV : 1 ≤ V) :
    ∀ (n fuel : Nat) (pos e d m : Int) (args : List α) (upd : Bool) (j : Nat),
      j < V → pos + 32 * (V : Int) * (n : Int) < e → (e - pos).toNat ≤ fuel →
      (pos + 32 * (V : Int) * (n : Int) + (j : Int)) ∈
        (vectorColsLoop op inF vecs L V fuel pos e d m args upd).map Prod.fst := by
  intro n
  induction n with
  | zero =>
    intro fuel pos e d m args upd j hj hlt hfuel
    have hpe : pos < e := by
      have hz : 32 * (V : Int) * (((0 : Nat)) : Int) = 0 := by push_cast; ring
      omega
    obtain ⟨f, rfl⟩ : ∃ f, fuel = f + 1 := ⟨fuel - 1, by omega⟩
    rw [vectorColsLoop, if_pos hpe]
    dsimp only
    rw [List.map_append]
    apply List.mem_append_left
    rw [vectorColsInner_fst]
    simp only [List.mem_map, List.mem_range]
    exact ⟨j, hj, by push_cast; ring⟩
  | succ n ih =>
    intro fuel pos e d m args upd j hj hlt hfuel
    have hx : pos + 32 * (V : Int) * (((n : Nat) + 1 : Nat) : Int)
        = (pos + 32 * (V : Int)) + 32 * (V : Int) * ((n : Nat) : Int) := by
      push_cast; ring
    have hnn : (0 : Int) ≤ 32 * (V : Int) * (((n : Nat) + 1 : Nat) : Int) := by positivity
    have hpe : pos < e := by omega
    obtain ⟨f, rfl⟩ : ∃ f, fuel = f + 1 := ⟨fuel - 1, by omega⟩
    rw [vectorColsLoop, if_pos hpe]
    dsimp only
    rw [List.map_append]
    apply List.mem_append_right
    have heq : pos + 32 * (V : Int) * (((n : Nat) + 1 : Nat) : Int) + (j : Int)
        = (pos + 32 * (V : Int)) + 32 * (V : Int) * ((n : Nat) : Int) + (j : Int) := by
      push_cast
      ring
    rw [heq]
    apply ih f (pos + 32 * (V : Int)) e _ _ _ false j hj
    · rw [← hx]
      exact hlt
    · have hVc : (1 : Int) ≤ (V : Int) := by exact_mod_cast hV
      omega

/-! ### The `vectorCols` kernels: all writes are correct, all targets covered -/

theorem vecColsMainThread_writes {α : Type} (op : α → List α → α) (inF : Int → α)
    (vecs : List (Int → α)) {L : Int} (hL : 1 ≤ L) (V BS : Nat)
    {arrOffset len ept : Int} (hoff : 0 ≤ arrOffset) (hept : 0 ≤ ept) (blk tid : Nat) :
    ∀ w ∈ vecColsMainThread op inF vecs L V BS arrOffset len ept blk tid,
      w.2 = op (inF w.1) (vecs.map fun v => v (w.1 / L)) := by
  intro w hw
  unfold vecColsMainThread at hw
  dsimp only at hw
  generalize ht : arrOffset + ept * ((blk * BS + tid - tid % 32 : Nat) : Int)
      + ((tid % 32 : Nat) : Int) * (V : Int) = t at hw
  have ht0 : 0 ≤ t := by
    rw [← ht]
    exact add_nonneg (add_nonneg hoff (mul_nonneg hept (Int.natCast_nonneg _)))
      (mul_nonneg (Int.natCast_nonneg _) (Int.natCast_nonneg _))
  rw [Int.tdiv_eq_ediv ht0 (by omega), Int.tmod_eq_emod ht0 (by omega)] at hw
  have hsum : (t / L) * L + t % L = t := by linear_combination Int.ediv_add_emod t L
  exact vectorColsLoop_writes op inF vecs hL V _ t _ (t / L) (t % L) [] true
    (Int.emod_nonneg t (by omega)) hsum (by intro h; simp at h) w hw

theorem vecColsMainKernel_writes {α : Type} (op : α → List α → α) (inF : Int → α)
    (vecs : List (Int → α)) {L : Int} (hL : 1 ≤ L) (V BS gs : Nat)
    {arrOffset len ept : Int} (hoff : 0 ≤ arrOffset) (hept : 0 ≤ ept) :
    ∀ w ∈ vecColsMainKernel op inF vecs L V BS gs arrOffset len ept,
      w.2 = op (inF w.1) (vecs.map fun v => v (w.1 / L)) := by
  intro w hw
  unfold vecColsMainKernel at hw
  simp only [List.mem_flatMap, List.mem_range] at hw
  obtain ⟨blk, _, tid, _, hw⟩ := hw
  exact vecColsMainThread_writes op inF vecs hL V BS hoff hept blk tid w hw

theorem vecColsMainKernel_covers {α : Type} (op : α → List α → α) (inF : Int → α)
    (vecs : List (Int → α)) (L : Int) {V BS gs eptN aOffN aLenN : Nat}
    (hV : 1 ≤ V) (hBS32 : 32 ∣ BS) (hBS : 1 ≤ BS)
    (hVept : V ∣ eptN) (heptV : V ≤ eptN)
    (hcap : aLenN ≤ gs * BS * eptN) (haOffV : aOffN < V) (hVlen : V ∣ aLenN) :
    ∀ q : Nat, aOffN ≤ q → q < aOffN + aLenN →
      ((q : Nat) : Int) ∈ (vecColsMainKernel op inF vecs L V BS gs
        ((aOffN : Nat) : Int) ((aLenN : Nat) : Int) ((eptN : Nat) : Int)).map Prod.fst := by
  intro q hq1 hq2
  obtain ⟨K, hK⟩ := hVlen
  have hBS32c : (32 : Nat) ∣ BS := hBS32
  obtain ⟨B2, hB2⟩ := hBS32c
  set u : Nat := q - aOffN with hu
  have huq : q = aOffN + u := by omega
  set eV : Nat := eptN / V with heV
  have heV1 : 1 ≤ eV := (Nat.one_le_div_iff (by omega)).mpr heptV
  have heVmul : V * eV = eptN := Nat.mul_div_cancel' hVept
  set cp : Nat := u / V with hcp
  set j : Nat := u % V with hj
  have hjV : j < V := Nat.mod_lt _ (by omega)
  have hucp : V * cp + j = u := Nat.div_add_mod u V
  set gw : Nat := cp / (32 * eV) with hgw
  set r : Nat := cp % (32 * eV) with hr
  have hcpr : 32 * eV * gw + r = cp := Nat.div_add_mod cp (32 * eV)
  have hrlt : r < 32 * eV := Nat.mod_lt _ (by omega)
  set lane : Nat := r % 32 with hlane
  set nIt : Nat := r / 32 with hnIt
  have hlane32 : lane < 32 := Nat.mod_lt _ (by norm_num)
  have hrdecomp : 32 * nIt + lane = r := Nat.div_add_mod r 32
  have hnItlt : nIt < eV := by omega
  set gt : Nat := 32 * gw + lane with hgt
  set blk : Nat := gt / BS with hblk
  set tid : Nat := gt % BS with htid
  have htidBS : tid < BS := Nat.mod_lt _ (by omega)
  have hgtdecomp : BS * blk + tid = gt := Nat.div_add_mod gt BS
  have hlaneeq : tid % 32 = lane := by
    have h1 : gt % BS % 32 = gt % 32 := Nat.mod_mod_of_dvd gt hBS32
    have h2 : gt % 32 = lane := by omega
    rw [htid, h1, h2]
  have hKV : aLenN / V = K := by rw [hK]; exact Nat.mul_div_cancel_left K (by omega)
  have hcpbound : cp < K := by
    have h1 : u < aLenN := by omega
    rw [hcp]
    exact Nat.div_lt_of_lt_mul (by omega)
  have hchunkN : aOffN + V * cp < aLenN := by
    have h1 : V * (cp + 1) ≤ V * K := Nat.mul_le_mul_left V (by omega)
    have h2 : V * (cp + 1) = V * cp + V := by ring
    omega
  have hgtlt : gt < gs * BS := by
    have h1 : aLenN ≤ V * (gs * B2 * (32 * eV)) := by
      calc aLenN ≤ gs * BS * eptN := hcap
        _ = V * (gs * B2 * (32 * eV)) := by rw [hB2, ← heVmul]; ring
    have h2 : K ≤ gs * B2 * (32 * eV) := by
      rw [hK] at h1
      exact Nat.le_of_mul_le_mul_left h1 (by omega)
    have h3 : cp < (32 * eV) * (gs * B2) := by
      have : gs * B2 * (32 * eV) = (32 * eV) * (gs * B2) := by ring
      omega
    have hgwlt : gw < gs * B2 := by
      rw [hgw]
      exact Nat.div_lt_of_lt_mul h3
    have h4 : gs * BS = 32 * (gs * B2) := by rw [hB2]; ring
    omega
  have hblklt : blk < gs := by
    rw [hblk]
    have h5 : BS * gs = gs * BS := Nat.mul_comm _ _
    exact Nat.div_lt_of_lt_mul (by omega)
  have hsub : blk * BS + tid - lane = 32 * gw := by
    have hcomm : blk * BS = BS * blk := Nat.mul_comm _ _
    omega
  have hexp : eptN * (32 * gw) + lane * V + 32 * (V * nIt) = V * cp := by
    calc eptN * (32 * gw) + lane * V + 32 * (V * nIt)
        = V * (32 * eV * gw + (32 * nIt + lane)) := by rw [← heVmul]; ring
      _ = V * cp := by rw [hrdecomp, hcpr]
  have htoN : q = aOffN + eptN * (32 * gw) + lane * V + 32 * (V * nIt) + j := by
    omega
  unfold vecColsMainKernel
  simp only [List.map_flatMap, List.mem_flatMap, List.mem_range]
  refine ⟨blk, hblklt, tid, htidBS, ?_⟩
  unfold vecColsMainThread
  dsimp only
  rw [hlaneeq, hsub]
  generalize hTT : ((aOffN : Nat) : Int) + ((eptN : Nat) : Int) * ((32 * gw : Nat) : Int)
      + ((lane : Nat) : Int) * ((V : Nat) : Int) = t
  have htarget : ((q : Nat) : Int)
      = t + 32 * ((V : Nat) : Int) * ((nIt : Nat) : Int) + ((j : Nat) : Int) := by
    rw [← hTT]
    push_cast
    push_cast at htoN
    linarith [htoN]
  rw [htarget]
  refine vectorColsLoop_covers op inF vecs L hV nIt
    ((min (t + ((eptN : Nat) : Int) * 32) ((aLenN : Nat) : Int) - t).toNat)
    t (min (t + ((eptN : Nat) : Int) * 32) ((aLenN : Nat) : Int))
    (t.tdiv L) (t.tmod L) [] true j hjV ?_ ?_
  · apply lt_min
    · -- within the thread budget: 32 V nIt < 32 ept
      have hxN : 32 * (V * nIt) < eptN * 32 := by
        have h1 : V * (nIt + 1) ≤ V * eV := Nat.mul_le_mul_left V (by omega)
        have h2 : V * (nIt + 1) = V * nIt + V := by ring
        omega
      have hcast : ((32 * (V * nIt) : Nat) : Int) < ((eptN * 32 : Nat) : Int) := by
        exact_mod_cast hxN
      have he1 : ((32 * (V * nIt) : Nat) : Int)
          = 32 * ((V : Nat) : Int) * ((nIt : Nat) : Int) := by push_cast; ring
      have he2 : ((eptN * 32 : Nat) : Int) = ((eptN : Nat) : Int) * 32 := by push_cast; ring
      rw [he1, he2] at hcast
      linarith
    · -- below the `len` cap
      have hbN : aOffN + (eptN * (32 * gw) + lane * V + 32 * (V * nIt)) < aLenN := by omega
      have hbI : ((aOffN + (eptN * (32 * gw) + lane * V + 32 * (V * nIt)) : Nat) : Int)
          < ((aLenN : Nat) : Int) := by exact_mod_cast hbN
      have he3 : ((aOffN + (eptN * (32 * gw) + lane * V + 32 * (V * nIt)) : Nat) : Int)
          = (((aOffN : Nat) : Int) + ((eptN : Nat) : Int) * ((32 * gw : Nat) : Int)
              + ((lane : Nat) : Int) * ((V : Nat) : Int))
            + 32 * ((V : Nat) : Int) * ((nIt : Nat) : Int) := by push_cast; ring
      rw [he3, hTT] at hbI
      linarith
  · exact le_rfl

theorem vecColsTailThread_writes0 {α : Type} (op : α → List α → α) (inF : Int → α)
    (vecs : List (Int → α)) {L : Int} (hL : 1 ≤ L) {arrOffset arrTail len : Int} (tid : Nat) :
    ∀ w ∈ vecColsTailThread op inF vecs L arrOffset arrTail len 0 tid,
      w.1 = (tid : Int) ∧ w.1 < arrOffset
      ∧ w.2 = op (inF w.1) (vecs.map fun v => v (w.1 / L)) := by
  intro w hw
  unfold vecColsTailThread at hw
  simp only [reduceIte] at hw
  by_cases hlt : (tid : Int) < arrOffset
  · rw [if_pos hlt] at hw
    obtain ⟨n, j, hj1, hjeq, hcond⟩ :=
      vectorColsLoop_fst op inF vecs L 1 _ _ _ _ _ [] true w hw
    have hj0 : j = 0 := by omega
    have hn0 : (n : Int) = 0 := by
      push_cast at hcond
      omega
    have hidx : w.1 = (tid : Int) := by
      rw [hjeq, hj0, hn0]
      push_cast
      ring
    refine ⟨hidx, by rw [hidx]; exact hlt, ?_⟩
    have ht0 : (0 : Int) ≤ (tid : Int) := Int.natCast_nonneg _
    rw [Int.tdiv_eq_ediv ht0 (by omega), Int.tmod_eq_emod ht0 (by omega)] at hw
    exact vectorColsLoop_writes op inF vecs hL 1 _ _ _ _ _ [] true
      (Int.emod_nonneg _ (by omega))
      (by linear_combination Int.ediv_add_emod ((tid : Nat) : Int) L)
      (by intro h; simp at h) w hw
  · rw [if_neg hlt] at hw
    simp [vectorColsLoop] at hw

theorem vecColsTailThread_writes1 {α : Type} (op : α → List α → α) (inF : Int → α)
    (vecs : List (Int → α)) {L : Int} (hL : 1 ≤ L) {arrOffset arrTail len : Int} (tid : Nat) :
    ∀ w ∈ vecColsTailThread op inF vecs L arrOffset arrTail len 1 tid,
      w.1 = arrTail + (tid : Int) ∧ w.1 < len
      ∧ (0 ≤ w.1 → w.2 = op (inF w.1) (vecs.map fun v => v (w.1 / L))) := by
  intro w hw
  unfold vecColsTailThread at hw
  simp only [show ((1 : Nat) = 0) = False from eq_false (by norm_num), if_false] at hw
  by_cases hlt : arrTail + (tid : Int) < len
  · rw [if_pos hlt] at hw
    obtain ⟨n, j, hj1, hjeq, hcond⟩ :=
      vectorColsLoop_fst op inF vecs L 1 _ _ _ _ _ [] true w hw
    have hj0 : j = 0 := by omega
    have hn0 : (n : Int) = 0 := by
      push_cast at hcond
      omega
    have hidx : w.1 = arrTail + (tid : Int) := by
      rw [hjeq, hj0, hn0]
      push_cast
      ring
    refine ⟨hidx, by rw [hidx]; exact hlt, ?_⟩
    intro h0
    rw [hidx] at h0
    rw [Int.tdiv_eq_ediv h0 (by omega), Int.tmod_eq_emod h0 (by omega)] at hw
    exact vectorColsLoop_writes op inF vecs hL 1 _ _ _ _ _ [] true
      (Int.emod_nonneg _ (by omega))
      (by linear_combination Int.ediv_add_emod (arrTail + (tid : Int)) L)
      (by intro h; simp at h) w hw
  · rw [if_neg hlt] at hw
    simp [vectorColsLoop] at hw

theorem vecColsTailKernel_facts {α : Type} (op : α → List α → α) (inF : Int → α)
    (vecs : List (Int → α)) {L : Int} (hL : 1 ≤ L) (M : Nat)
    {arrOffset arrTail len : Int} :
    ∀ w ∈ vecColsTailKernel op inF vecs L M arrOffset arrTail len,
      (w.1 < arrOffset ∨ arrTail ≤ w.1)
      ∧ (0 ≤ w.1 → w.2 = op (inF w.1) (vecs.map fun v => v (w.1 / L))) := by
  intro w hw
  unfold vecColsTailKernel at hw
  simp only [List.mem_flatMap, List.mem_range] at hw
  obtain ⟨blk, hblk, tid, htid, hw⟩ := hw
  interval_cases blk
  · obtain ⟨h1, h2, h3⟩ := vecColsTailThread_writes0 op inF vecs hL tid w hw
    exact ⟨Or.inl h2, fun _ => h3⟩
  · obtain ⟨h1, h2, h3⟩ := vecColsTailThread_writes1 op inF vecs hL tid w hw
    refine ⟨Or.inr ?_, h3⟩
    rw [h1]
    have : (0 : Int) ≤ (tid : Int) := Int.natCast_nonneg _
    omega

theorem vecColsTailKernel_covers {α : Type} (op : α → List α → α) (inF : Int → α)
    (vecs : List (Int → α)) (L : Int) {M : Nat} {arrOffset arrTail len : Int}
    (hoffM : arrOffset ≤ (M : Int)) (htailM : len - arrTail ≤ (M : Int)) :
    ∀ i : Int, 0 ≤ i → i < len → (i < arrOffset ∨ arrTail ≤ i) →
      i ∈ (vecColsTailKernel op inF vecs L M arrOffset arrTail len).map Prod.fst := by
  intro i h0 hlen hreg
  unfold vecColsTailKernel
  simp only [List.map_flatMap]
  rcases hreg with hhead | htail
  · -- head: block 0, thread i
    have htidM : i.toNat < M := by omega
    apply List.mem_flatMap.mpr
    refine ⟨0, by norm_num, ?_⟩
    apply List.mem_flatMap.mpr
    refine ⟨i.toNat, List.mem_range.mpr htidM, ?_⟩
    unfold vecColsTailThread
    simp only [reduceIte]
    have hcast : ((i.toNat : Nat) : Int) = i := Int.toNat_of_nonneg h0
    rw [hcast, if_pos hhead]
    have hmem := vectorColsLoop_covers op inF vecs L le_rfl 0 (1 : Int).toNat i (i + 1)
      (i.tdiv L) (i.tmod L) [] true 0 (by norm_num) (by push_cast; omega) (by omega)
    have hx : i + 32 * ((1 : Nat) : Int) * ((0 : Nat) : Int) + ((0 : Nat) : Int) = i := by
      push_cast
      ring
    rw [hx] at hmem
    exact hmem
  · -- tail: block 1, thread i - arrTail
    have htidM : (i - arrTail).toNat < M := by omega
    apply List.mem_flatMap.mpr
    refine ⟨1, by norm_num, ?_⟩
    apply List.mem_flatMap.mpr
    refine ⟨(i - arrTail).toNat, List.mem_range.mpr htidM, ?_⟩
    unfold vecColsTailThread
    simp only [show ((1 : Nat) = 0) = False from eq_false (by norm_num), if_false]
    have hcast : arrTail + (((i - arrTail).toNat : Nat) : Int) = i := by omega
    rw [hcast, if_pos hlen]
    have hmem := vectorColsLoop_covers op inF vecs L le_rfl 0 (1 : Int).toNat i (i + 1)
      (i.tdiv L) (i.tmod L) [] true 0 (by norm_num) (by push_cast; omega) (by omega)
    have hx : i + 32 * ((1 : Nat) : Int) * ((0 : Nat) : Int) + ((0 : Nat) : Int) = i := by
      push_cast
      ring
    rw [hx] at hmem
    exact hmem

/-! ### Host-level correctness of `matrixLinewiseVecCols` -/

theorem vecColsMain_applied {α : Type} (op : α → List α → α) (outF inF : Int → α)
    (vecs : List (Int → α)) {L : Int} (hL : 1 ≤ L) {V BS occupy : Nat} {aOffI aE : Int}
    (hV : 1 ≤ V) (hBS32 : 32 ∣ BS) (hBS : 1 ≤ BS) (hocc : 1 ≤ occupy)
    (hoff0 : 0 ≤ aOffI) (hoffV : aOffI < (V : Int)) (hdvd : (V : Int) ∣ (aE - aOffI))
    (hmain : 0 < aE - aOffI) (i : Int) (hi1 : aOffI ≤ i) (hi2 : i < aE) :
    applyWrites outF (vecColsMainKernel op inF vecs L V BS
        (min (ceildivN (aE - aOffI).toNat (BS * V)) occupy) aOffI (aE - aOffI)
        (ceildivI (aE - aOffI)
          ((min (ceildivN (aE - aOffI).toNat (BS * V)) occupy : Nat) * (V : Int) * (BS : Int))
          * (V : Int))) i
      = op (inF i) (vecs.map fun v => v (i / L)) := by
  set gs : Nat := min (ceildivN (aE - aOffI).toNat (BS * V)) occupy with hgs
  set c : Int := ceildivI (aE - aOffI) ((gs : Int) * (V : Int) * (BS : Int)) with hc
  have hgs1 : 1 ≤ gs := by
    refine Nat.le_min.mpr ⟨ceildivN_pos (by omega) (Nat.mul_pos (by omega) (by omega)), hocc⟩
  have hprod1 : (1 : Int) ≤ (gs : Int) * (V : Int) * (BS : Int) := by
    have h9 : 1 ≤ gs * V * BS := Nat.mul_pos (Nat.mul_pos (by omega) (by omega)) (by omega)
    exact_mod_cast h9
  have hc1 : 1 ≤ c := ceildivI_pos (by omega) hprod1
  have hept0 : 0 ≤ c * (V : Int) := mul_nonneg (by omega) (Int.natCast_nonneg _)
  have hVc : (1 : Int) ≤ (V : Int) := by exact_mod_cast hV
  -- name the Nat images of the three Int quantities
  set aOffN : Nat := aOffI.toNat with haOffN
  set aLenN : Nat := (aE - aOffI).toNat with haLenN
  set eptN : Nat := (c * (V : Int)).toNat with heptN
  have haOffc : aOffI = (aOffN : Int) := by omega
  have haLenc : aE - aOffI = (aLenN : Int) := by omega
  have heptc : c * (V : Int) = (eptN : Int) := by
    have : 0 ≤ c * (V : Int) := hept0
    omega
  have hVept : V ∣ eptN := by
    have h1 : ((V : Nat) : Int) ∣ ((eptN : Nat) : Int) := by
      rw [← heptc]
      exact dvd_mul_left _ _
    exact_mod_cast h1
  have heptV : V ≤ eptN := by
    have h1 : (V : Int) ≤ c * (V : Int) := le_mul_of_one_le_left (by positivity) hc1
    omega
  have hcap : aLenN ≤ gs * BS * eptN := by
    have h1 : aE - aOffI ≤ c * ((gs : Int) * (V : Int) * (BS : Int)) :=
      ceildivI_mul_ge (by omega) hprod1
    have h2 : c * ((gs : Int) * (V : Int) * (BS : Int))
        = (gs : Int) * (BS : Int) * (c * (V : Int)) := by ring
    have h3 : aE - aOffI ≤ (gs : Int) * (BS : Int) * ((eptN : Nat) : Int) := by
      rw [← heptc]
      omega
    have h4 : ((aLenN : Nat) : Int) ≤ ((gs * BS * eptN : Nat) : Int) := by
      push_cast
      push_cast at h3
      omega
    exact_mod_cast h4
  have hoffVN : aOffN < V := by omega
  have hVlen : V ∣ aLenN := by
    have h1 : ((V : Nat) : Int) ∣ ((aLenN : Nat) : Int) := by
      rw [← haLenc]
      exact hdvd
    exact_mod_cast h1
  rw [haLenc, heptc, haOffc]
  apply applyWrites_eq_of_mem
  · intro w hw hwi
    have hval := vecColsMainKernel_writes op inF vecs hL V BS gs
      (by rw [← haOffc]; exact hoff0) (by rw [← heptc]; exact hept0) w hw
    rw [hwi] at hval
    exact hval
  · have hex := vecColsMainKernel_covers op inF vecs L hV hBS32 hBS hVept heptV hcap
      hoffVN hVlen i.toNat (by omega) (by omega)
    have hid : ((i.toNat : Nat) : Int) = i := Int.toNat_of_nonneg (by omega)
    rw [hid] at hex
    simp only [List.mem_map] at hex
    obtain ⟨w, hw, hwi⟩ := hex
    exact ⟨w, hw, hwi⟩

theorem vecColsTail_applied {α : Type} (op : α → List α → α) (g inF : Int → α)
    (vecs : List (Int → α)) {L : Int} (hL : 1 ≤ L) {M : Nat} {aOffI aE T : Int}
    (hoffM : aOffI ≤ (M : Int)) (htailM : T - aE ≤ (M : Int)) (i : Int)
    (h0 : 0 ≤ i) (hiT : i < T) (hreg : i < aOffI ∨ aE ≤ i) :
    applyWrites g (vecColsTailKernel op inF vecs L M aOffI aE T) i
      = op (inF i) (vecs.map fun v => v (i / L)) := by
  apply applyWrites_eq_of_mem
  · intro w hw hwi
    have hfacts := vecColsTailKernel_facts op inF vecs hL M w hw
    have hval := hfacts.2 (by rw [hwi]; exact h0)
    rw [hwi] at hval
    exact hval
  · have hex := vecColsTailKernel_covers op inF vecs L hoffM htailM i h0 hiT hreg
    simp only [List.mem_map] at hex
    obtain ⟨w, hw, hwi⟩ := hex
    exact ⟨w, hw, hwi⟩

theorem vecColsTail_skips {α : Type} (op : α → List α → α) (g inF : Int → α)
    (vecs : List (Int → α)) {L : Int} (hL : 1 ≤ L) (M : Nat) {aOffI aE T : Int}
    (i : Int) (hreg1 : aOffI ≤ i) (hreg2 : i < aE) :
    applyWrites g (vecColsTailKernel op inF vecs L M aOffI aE T) i = g i := by
  apply applyWrites_eq_of_forall_ne
  intro w hw
  have hfacts := vecColsTailKernel_facts op inF vecs hL M w hw
  rcases hfacts.1 with h | h <;> omega

theorem matrixLinewiseVecCols_correct {α : Type} (op : α → List α → α)
    (outF inF : Int → α) (vecs : List (Int → α)) {rowLen nRows : Int}
    {s W BS occupy addr : Nat}
    (hrow : 1 ≤ rowLen) (hn : 1 ≤ nRows) (hs : 1 ≤ s) (hW : 1 ≤ W) (hsW : s ∣ W)
    (haddr : s ∣ addr) (hBS32 : 32 ∣ BS) (hBS : 1 ≤ BS) (hocc : 1 ≤ occupy) :
    ∀ i : Int, 0 ≤ i → i < rowLen * nRows →
      (matrixLinewiseVecCols op outF inF vecs rowLen nRows s W BS occupy addr).1 i
        = op (inF i) (vecs.map fun v => v (i / rowLen)) := by
  intro i h0 hiT
  have hT1 : 1 ≤ rowLen * nRows := by nlinarith
  have hT0 : (0 : Int) ≤ rowLen * nRows := by omega
  have hV1 : 1 ≤ W / s := (Nat.one_le_div_iff (by omega)).mpr (Nat.le_of_dvd (by omega) hsW)
  have haOffV : alignedOffN s W addr < W / s := alignedOffN_lt hs hW hsW haddr
  have hEndle : alignedEndE s W addr (rowLen * nRows) ≤ rowLen * nRows :=
    alignedEndE_le hT0 hs hsW haddr
  have htailV : rowLen * nRows - alignedEndE s W addr (rowLen * nRows) < ((W / s : Nat) : Int) :=
    alignedEndE_tail_lt hT0 hs hW hsW haddr
  have hdvd : ((W / s : Nat) : Int) ∣
      (alignedEndE s W addr (rowLen * nRows) - (alignedOffN s W addr : Int)) :=
    alignedLen_dvd (rowLen * nRows) hs hW hsW haddr
  have hVM : W / s ≤ max 32 W := le_trans (Nat.div_le_self W s) (le_max_right 32 W)
  have hoffM : ((alignedOffN s W addr : Nat) : Int) ≤ ((max 32 W : Nat) : Int) := by
    have h1 : alignedOffN s W addr ≤ max 32 W := le_trans (le_of_lt haOffV) hVM
    exact_mod_cast h1
  have htailM : rowLen * nRows - alignedEndE s W addr (rowLen * nRows)
      ≤ ((max 32 W : Nat) : Int) := by
    have h1 : ((W / s : Nat) : Int) ≤ ((max 32 W : Nat) : Int) := by exact_mod_cast hVM
    omega
  unfold matrixLinewiseVecCols
  dsimp only
  by_cases htailif : alignedEndE s W addr (rowLen * nRows) - ((alignedOffN s W addr : Nat) : Int)
      < rowLen * nRows
  · rw [if_pos htailif]
    by_cases hmain : (0 : Int)
        < alignedEndE s W addr (rowLen * nRows) - ((alignedOffN s W addr : Nat) : Int)
    · rw [if_pos hmain]
      dsimp only
      by_cases hreg : ((alignedOffN s W addr : Nat) : Int) ≤ i
          ∧ i < alignedEndE s W addr (rowLen * nRows)
      · rw [vecColsTail_skips op _ inF vecs hrow (max 32 W) i hreg.1 hreg.2]
        exact vecColsMain_applied op outF inF vecs hrow hV1 hBS32 hBS hocc
          (Int.natCast_nonneg _) (by exact_mod_cast haOffV) hdvd hmain i hreg.1 hreg.2
      · refine vecColsTail_applied op _ inF vecs hrow hoffM htailM i h0 hiT ?_
        omega
    · rw [if_neg hmain]
      dsimp only
      refine vecColsTail_applied op _ inF vecs hrow hoffM htailM i h0 hiT ?_
      omega
  · rw [if_neg htailif]
    have hoff0 : ((alignedOffN s W addr : Nat) : Int) = 0 := by omega
    have hEndT : alignedEndE s W addr (rowLen * nRows) = rowLen * nRows := by omega
    have hmain : (0 : Int)
        < alignedEndE s W addr (rowLen * nRows) - ((alignedOffN s W addr : Nat) : Int) := by
      omega
    rw [if_pos hmain]
    dsimp only
    exact vecColsMain_applied op outF inF vecs hrow hV1 hBS32 hBS hocc
      (Int.natCast_nonneg _) (by exact_mod_cast haOffV) hdvd hmain i (by omega) (by omega)

/-! ### Characterization of `Linewise::loadVec` -/

theorem loadVecStage_writes {α : Type} (p : Int → α) (L : Int) (BS : Nat) :
    ∀ (fuel bound k : Nat) (j : Int),
      ∀ w ∈ loadVecStage p L BS fuel bound k j,
        ∃ n : Nat, w.1 = k + n * BS ∧ (n = 0 → w.2 = p (wrapJ L j))
          ∧ (1 ≤ L → 0 ≤ j → w.2 = p ((j + ((n * BS : Nat) : Int)) % L)) := by
  intro fuel
  induction fuel with
  | zero => intro bound k j w hw; simp [loadVecStage] at hw
  | succ f ih =>
    intro bound k j w hw
    rw [loadVecStage] at hw
    by_cases hk : k < bound
    · rw [if_pos hk] at hw
      dsimp only at hw
      rcases List.mem_cons.mp hw with rfl | hw2
      · refine ⟨0, by omega, fun _ => rfl, ?_⟩
        intro hL hj
        rw [wrapJ_spec hL j hj]
        norm_num
      · obtain ⟨n, hn1, _, hn3⟩ := ih bound (k + BS) (wrapJ L j + BS) w hw2
        have hy : (n + 1) * BS = n * BS + BS := by ring
        refine ⟨n + 1, by omega, fun h => absurd h (by omega), ?_⟩
        intro hL hj
        rw [hn3 hL (by
          have := Int.emod_nonneg j (show L ≠ 0 by omega)
          rw [wrapJ_spec hL j hj]
          positivity)]
        rw [wrapJ_spec hL j hj]
        congr 1
        calc (j % L + (BS : Int) + ((n * BS : Nat) : Int)) % L
            = (j % L + ((BS : Int) + ((n * BS : Nat) : Int))) % L := by ring_nf
          _ = (j + ((BS : Int) + ((n * BS : Nat) : Int))) % L := Int.emod_add_emod _ _ _
          _ = (j + (((n + 1) * BS : Nat) : Int)) % L := by push_cast; ring_nf
    · rw [if_neg hk] at hw
      simp at hw

theorem loadVecStage_covers {α : Type} (p : Int → α) (L : Int) (BS : Nat) :
    ∀ (n fuel bound k : Nat) (j : Int), n < fuel → k + n * BS < bound →
      (k + n * BS) ∈ (loadVecStage p L BS fuel bound k j).map Prod.fst := by
  intro n
  induction n with
  | zero =>
    intro fuel bound k j hn hk
    obtain ⟨f, rfl⟩ : ∃ f, fuel = f + 1 := ⟨fuel - 1, by omega⟩
    rw [loadVecStage, if_pos (by omega)]
    dsimp only
    simp only [List.map_cons, List.mem_cons]
    left
    omega
  | succ n ih =>
    intro fuel bound k j hn hk
    obtain ⟨f, rfl⟩ : ∃ f, fuel = f + 1 := ⟨fuel - 1, by omega⟩
    rw [loadVecStage, if_pos (by
      have h1 : 1 * BS ≤ (n + 1) * BS := Nat.mul_le_mul_right BS (by omega)
      omega)]
    dsimp only
    simp only [List.map_cons, List.mem_cons]
    right
    have hx : k + (n + 1) * BS = (k + BS) + n * BS := by ring
    rw [hx]
    exact ih f bound (k + BS) _ (by omega) (by omega)

theorem loadVec_spec {α : Type} (shm0 : Nat → α) (p : Int → α) {L : Int} (hL : 1 ≤ L)
    {BS V : Nat} (hBS : 1 ≤ BS) {blockOffset : Int} (hbo : 0 ≤ blockOffset)
    {tid k : Nat} (htid : tid < BS) (hk : k < V) :
    loadVec shm0 p L BS V blockOffset tid k
      = p ((blockOffset + ((tid * V + k : Nat) : Int)) % L) := by
  unfold loadVec loadVecShm
  have hmVBS : tid * V + k < V * BS := by
    have h1 : (tid + 1) * V = tid * V + V := by ring
    have h2 : (tid + 1) * V ≤ BS * V := Nat.mul_le_mul_right V (by omega)
    have h3 : BS * V = V * BS := Nat.mul_comm _ _
    omega
  have hvalues : ∀ w ∈ (List.range BS).flatMap fun tid2 =>
      loadVecStage p L BS V (V * BS) tid2 (blockOffset + (tid2 : Int)),
      w.1 = tid * V + k → w.2 = p ((blockOffset + ((tid * V + k : Nat) : Int)) % L) := by
    intro w hw hwi
    simp only [List.mem_flatMap, List.mem_range] at hw
    obtain ⟨tid2, htid2, hw⟩ := hw
    obtain ⟨n, hn1, _, hn3⟩ := loadVecStage_writes p L BS V (V * BS) tid2
      (blockOffset + (tid2 : Int)) w hw
    have hx : tid2 + n * BS = tid * V + k := by omega
    have hnum : blockOffset + ((tid2 : Nat) : Int) + ((n * BS : Nat) : Int)
        = blockOffset + ((tid * V + k : Nat) : Int) := by omega
    rw [hn3 hL (add_nonneg hbo (Int.natCast_nonneg _)), hnum]
  apply applyWrites_eq_of_mem hvalues
  · -- existence: thread (m % BS) writes slot m at iteration m / BS
    set m : Nat := tid * V + k with hm
    have hcm : BS * V = V * BS := Nat.mul_comm _ _
    have hmd : m % BS + BS * (m / BS) = m := Nat.mod_add_div m BS
    have hcm2 : (m / BS) * BS = BS * (m / BS) := Nat.mul_comm _ _
    have hmem := loadVecStage_covers p L BS (m / BS) V (V * BS) (m % BS)
      (blockOffset + ((m % BS : Nat) : Int)) (Nat.div_lt_of_lt_mul (by omega))
      (by omega)
    have hslot : m % BS + m / BS * BS = m := by omega
    rw [hslot] at hmem
    simp only [List.mem_map] at hmem
    obtain ⟨w, hw, hwfst⟩ := hmem
    refine ⟨w, ?_, hwfst⟩
    simp only [List.mem_flatMap, List.mem_range]
    exact ⟨m % BS, Nat.mod_lt _ (by omega), hw⟩

theorem loadVec_one {α : Type} (shm0 : Nat → α) (p : Int → α) (L : Int)
    {BS : Nat} (hBS : 1 ≤ BS) {blockOffset : Int} {tid : Nat} (htid : tid < BS) :
    loadVec shm0 p L BS 1 blockOffset tid 0 = p (wrapJ L (blockOffset + (tid : Int))) := by
  unfold loadVec loadVecShm
  have hvalues : ∀ w ∈ (List.range BS).flatMap fun tid2 =>
      loadVecStage p L BS 1 (1 * BS) tid2 (blockOffset + (tid2 : Int)),
      w.1 = tid * 1 + 0 → w.2 = p (wrapJ L (blockOffset + (tid : Int))) := by
    intro w hw hwi
    simp only [List.mem_flatMap, List.mem_range] at hw
    obtain ⟨tid2, htid2, hw⟩ := hw
    obtain ⟨n, hn1, hn2, _⟩ := loadVecStage_writes p L BS 1 (1 * BS) tid2
      (blockOffset + (tid2 : Int)) w hw
    have hn0 : n = 0 ∧ tid2 = tid := by
      by_cases hnz : n = 0
      · subst hnz
        simp only [Nat.zero_mul, Nat.add_zero] at hn1
        exact ⟨rfl, by omega⟩
      · exfalso
        have h1 : 1 * BS ≤ n * BS := Nat.mul_le_mul_right BS (by omega)
        omega
    rw [hn2 hn0.1, hn0.2]
  apply applyWrites_eq_of_mem hvalues
  · have hmem := loadVecStage_covers p L BS 0 1 (1 * BS) tid
      (blockOffset + (tid : Int)) (by omega) (by omega)
    simp only [Nat.zero_mul, Nat.add_zero] at hmem
    simp only [List.mem_map] at hmem
    obtain ⟨w, hw, hwfst⟩ := hmem
    refine ⟨w, ?_, by omega⟩
    simp only [List.mem_flatMap, List.mem_range]
    exact ⟨tid, htid, hw⟩

/-! ### Characterization of the `vectorRows` grid-stride loop -/

theorem vectorRowsLoop_writes {α : Type} (op : α → List α → α) (inF : Int → α)
    (chunks : List (Nat → α)) (V : Nat) (base : Int) :
    ∀ (fuel : Nat) (i lenWide d : Int),
      ∀ w ∈ vectorRowsLoop op inF chunks V base fuel i lenWide d,
        ∃ (n k : Nat), k < V ∧ w.1 = base + (i + (n : Int) * d) * (V : Int) + (k : Int)
          ∧ i + (n : Int) * d < lenWide
          ∧ w.2 = op (inF w.1) (chunks.map fun c => c k) := by
  intro fuel
  induction fuel with
  | zero => intro i lenWide d w hw; simp [vectorRowsLoop] at hw
  | succ f ih =>
    intro i lenWide d w hw
    rw [vectorRowsLoop] at hw
    by_cases hi : i < lenWide
    · rw [if_pos hi] at hw
      rcases List.mem_append.mp hw with h1 | h2
      · simp only [List.mem_map, List.mem_range] at h1
        obtain ⟨k, hk, hkeq⟩ := h1
        refine ⟨0, k, hk, ?_, by simpa using hi, ?_⟩
        · rw [← hkeq]
          push_cast
          ring
        · subst hkeq
          rfl
      · obtain ⟨n, k, hk, hkeq, hcond, hval⟩ := ih (i + d) lenWide d w h2
        refine ⟨n + 1, k, hk, ?_, ?_, hval⟩
        · rw [hkeq]
          push_cast
          ring
        · push_cast at hcond ⊢
          linarith
    · rw [if_neg hi] at hw
      simp at hw

theorem vectorRowsLoop_covers {α : Type} (op : α → List α → α) (inF : Int → α)
    (chunks : List (Nat → α)) (V : Nat) (base : Int) :
    ∀ (n fuel : Nat) (i lenWide d : Int) (k : Nat), 0 < d → k < V →
      i + (n : Int) * d < lenWide → (lenWide - i).toNat ≤ fuel →
      (base + (i + (n : Int) * d) * (V : Int) + (k : Int)) ∈
        (vectorRowsLoop op inF chunks V base fuel i lenWide d).map Prod.fst := by
  intro n
  induction n with
  | zero =>
    intro fuel i lenWide d k hd hk hcond hfuel
    have hi : i < lenWide := by push_cast at hcond; omega
    obtain ⟨f, rfl⟩ : ∃ f, fuel = f + 1 := ⟨fuel - 1, by omega⟩
    rw [vectorRowsLoop, if_pos hi, List.map_append]
    apply List.mem_append_left
    simp only [List.map_map, List.mem_map, List.mem_range]
    refine ⟨k, hk, ?_⟩
    simp only [Function.comp_apply]
    push_cast
    ring
  | succ n ih =>
    intro fuel i lenWide d k hd hk hcond hfuel
    have hnn : (0 : Int) ≤ (n : Int) * d := by positivity
    have hi : i < lenWide := by
      have hx : ((n : Nat) + 1 : Int) * d = (n : Int) * d + d := by ring
      push_cast at hcond
      nlinarith
    obtain ⟨f, rfl⟩ : ∃ f, fuel = f + 1 := ⟨fuel - 1, by omega⟩
    rw [vectorRowsLoop, if_pos hi, List.map_append]
    apply List.mem_append_right
    have hx : base + (i + (((n : Nat) + 1 : Nat) : Int) * d) * (V : Int) + (k : Int)
        = base + ((i + d) + (n : Int) * d) * (V : Int) + (k : Int) := by
      push_cast
      ring
    rw [hx]
    apply ih f (i + d) lenWide d k hd hk
    · push_cast at hcond ⊢
      linarith
    · omega

/-! ### Characterization of the `vectorRows` main kernel -/

theorem vecRowsMainKernel_writes {α : Type} (op : α → List α → α) (inF : Int → α)
    (vecs : List (Int → α)) {L : Int} (hL : 1 ≤ L) {V BS gs : Nat}
    (hV : 1 ≤ V) (hBS : 1 ≤ BS) {arrOffset lenWide : Int} (haO : 0 ≤ arrOffset)
    (hcase : (L ∣ (BS : Int) * (V : Int) * (gs : Int)) ∨ lenWide ≤ (BS : Int) * (gs : Int)) :
    ∀ w ∈ vecRowsMainKernel op inF vecs L V BS gs arrOffset lenWide,
      arrOffset ≤ w.1 ∧ w.1 < arrOffset + lenWide * (V : Int)
      ∧ w.2 = op (inF w.1) (vecs.map fun v => v (w.1 % L)) := by
  intro w hw
  unfold vecRowsMainKernel at hw
  simp only [List.mem_flatMap, List.mem_range] at hw
  obtain ⟨blk, hblk, tid, htid, hw⟩ := hw
  obtain ⟨n, k, hk, hidx, hcond, hval⟩ :=
    vectorRowsLoop_writes op inF _ V arrOffset _ _ _ _ w hw
  have hVpos : (0 : Int) < (V : Int) := by exact_mod_cast hV
  have hkV : ((k : Nat) : Int) < (V : Int) := by exact_mod_cast hk
  have hi0 : (0 : Int) ≤ (tid : Int) + (blk : Int) * (BS : Int) := by positivity
  have hndnn : (0 : Int) ≤ (n : Int) * ((BS : Int) * (gs : Int)) := by positivity
  have hknn : (0 : Int) ≤ ((k : Nat) : Int) := Int.natCast_nonneg _
  refine ⟨?_, ?_, ?_⟩
  · rw [hidx]
    nlinarith
  · rw [hidx]
    have h1 : ((tid : Int) + (blk : Int) * (BS : Int) + (n : Int) * ((BS : Int) * (gs : Int)) + 1)
        * (V : Int) ≤ lenWide * (V : Int) :=
      mul_le_mul_of_nonneg_right (by linarith) (le_of_lt hVpos)
    nlinarith
  · have hn0 : lenWide ≤ (BS : Int) * (gs : Int) → n = 0 := by
      intro hlen
      by_contra hne
      have h1 : (1 : Int) ≤ (n : Int) := by
        exact_mod_cast Nat.one_le_iff_ne_zero.mpr hne
      have h2 : 1 * ((BS : Int) * (gs : Int)) ≤ (n : Int) * ((BS : Int) * (gs : Int)) :=
        mul_le_mul_of_nonneg_right h1 (by positivity)
      have hBSgs : (1 : Int) ≤ (BS : Int) * (gs : Int) := by nlinarith
      linarith
    have haO2 : 0 ≤ arrOffset + (BS : Int) * (V : Int) * (blk : Int) :=
      add_nonneg haO (by positivity)
    have hfun : ((fun c : Nat → α => c k) ∘ fun p : Int → α =>
        loadVec (fun _ => p 0) p L BS V
          ((arrOffset + (BS : Int) * (V : Int) * (blk : Int)).tmod L) tid)
        = fun v : Int → α => v (w.1 % L) := by
      funext p
      simp only [Function.comp_apply]
      have htm : (arrOffset + (BS : Int) * (V : Int) * (blk : Int)).tmod L
          = (arrOffset + (BS : Int) * (V : Int) * (blk : Int)) % L :=
        Int.tmod_eq_emod haO2 (by omega)
      rw [htm]
      rw [loadVec_spec (fun _ => p 0) p hL hBS (Int.emod_nonneg _ (by omega)) htid hk]
      congr 1
      rw [Int.emod_add_emod]
      rw [Int.emod_eq_emod_iff_emod_sub_eq_zero]
      rcases hcase with hdvd | hlen
      · have hdiff : arrOffset + (BS : Int) * (V : Int) * (blk : Int)
            + ((tid * V + k : Nat) : Int) - w.1
            = -((n : Int) * ((BS : Int) * (V : Int) * (gs : Int))) := by
          rw [hidx]
          push_cast
          ring
        rw [hdiff]
        exact Int.emod_eq_zero_of_dvd (dvd_neg.mpr (hdvd.mul_left (n : Int)))
      · have hz := hn0 hlen
        subst hz
        have hdiff : arrOffset + (BS : Int) * (V : Int) * (blk : Int)
            + ((tid * V + k : Nat) : Int) - w.1 = 0 := by
          rw [hidx]
          push_cast
          ring
        rw [hdiff]
        exact Int.zero_emod L
    rw [hval, List.map_map, hfun]

theorem vecRowsMainKernel_covers {α : Type} (op : α → List α → α) (inF : Int → α)
    (vecs : List (Int → α)) (L : Int) {V BS gs : Nat}
    (hV : 1 ≤ V) (hBS : 1 ≤ BS) (hgs : 1 ≤ gs) {arrOffset lenWide : Int}
    (q : Int) (hq1 : arrOffset ≤ q) (hq2 : q < arrOffset + lenWide * (V : Int)) :
    q ∈ (vecRowsMainKernel op inF vecs L V BS gs arrOffset lenWide).map Prod.fst := by
  have hVpos : (0 : Int) < (V : Int) := by exact_mod_cast hV
  have hlen0 : 0 < lenWide := by
    by_contra hcon
    push_neg at hcon
    nlinarith
  set relN : Nat := (q - arrOffset).toNat with hrelN
  have hqeq : q = arrOffset + (relN : Int) := by omega
  have hrelI : (relN : Int) < lenWide * (V : Int) := by omega
  have hrelN_lt : relN < lenWide.toNat * V := by
    have h1 : ((lenWide.toNat * V : Nat) : Int) = lenWide * (V : Int) := by
      push_cast
      rw [Int.toNat_of_nonneg (by omega)]
    omega
  obtain ⟨io, k, hkV, hrelNeq⟩ : ∃ io k, k < V ∧ relN = io * V + k := by
    refine ⟨relN / V, relN % V, Nat.mod_lt _ (by omega), ?_⟩
    have h1 := Nat.div_add_mod relN V
    have h2 : relN / V * V = V * (relN / V) := Nat.mul_comm _ _
    omega
  have hioLen : io < lenWide.toNat := by
    have h1 : io * V < lenWide.toNat * V := by omega
    exact lt_of_mul_lt_mul_right h1 (Nat.zero_le V)
  obtain ⟨n, r, hrD, hione⟩ : ∃ n r, r < BS * gs ∧ io = r + n * (BS * gs) := by
    refine ⟨io / (BS * gs), io % (BS * gs), Nat.mod_lt _ (Nat.mul_pos (by omega) (by omega)), ?_⟩
    have h1 := Nat.div_add_mod io (BS * gs)
    have h2 : io / (BS * gs) * (BS * gs) = (BS * gs) * (io / (BS * gs)) := Nat.mul_comm _ _
    omega
  obtain ⟨blk, tid, htidBS, hblkgs, hreq⟩ : ∃ blk tid, tid < BS ∧ blk < gs ∧ r = tid + blk * BS := by
    refine ⟨r / BS, r % BS, Nat.mod_lt _ (by omega), Nat.div_lt_of_lt_mul hrD, ?_⟩
    have h1 := Nat.div_add_mod r BS
    have h2 : r / BS * BS = BS * (r / BS) := Nat.mul_comm _ _
    omega
  have hioI : ((io : Nat) : Int) < lenWide := by
    have h2 : ((lenWide.toNat : Nat) : Int) = lenWide := Int.toNat_of_nonneg (by omega)
    omega
  have h3 : (tid + blk * BS) + n * (BS * gs) = io := by
    rw [hreq] at hione
    omega
  have hcnd : ((tid : Nat) : Int) + ((blk : Nat) : Int) * ((BS : Nat) : Int)
      + ((n : Nat) : Int) * (((BS : Nat) : Int) * ((gs : Nat) : Int)) < lenWide := by
    calc ((tid : Nat) : Int) + ((blk : Nat) : Int) * ((BS : Nat) : Int)
        + ((n : Nat) : Int) * (((BS : Nat) : Int) * ((gs : Nat) : Int))
        = ((io : Nat) : Int) := by rw [← h3]; push_cast; ring
      _ < lenWide := hioI
  have hqform : q = arrOffset + (((tid : Nat) : Int) + ((blk : Nat) : Int) * ((BS : Nat) : Int)
      + ((n : Nat) : Int) * (((BS : Nat) : Int) * ((gs : Nat) : Int))) * ((V : Nat) : Int)
      + ((k : Nat) : Int) := by
    have h1 : relN = (tid + blk * BS + n * (BS * gs)) * V + k := by
      rw [hrelNeq, hione, hreq]
    rw [hqeq, h1]
    push_cast
    ring
  rw [hqform]
  unfold vecRowsMainKernel
  simp only [List.map_flatMap]
  apply List.mem_flatMap.mpr
  refine ⟨blk, List.mem_range.mpr hblkgs, ?_⟩
  apply List.mem_flatMap.mpr
  refine ⟨tid, List.mem_range.mpr htidBS, ?_⟩
  dsimp only
  exact vectorRowsLoop_covers op inF _ V arrOffset n
    ((lenWide - ((tid : Int) + (blk : Int) * (BS : Int))).toNat)
    ((tid : Int) + (blk : Int) * (BS : Int)) lenWide ((BS : Int) * (gs : Int)) k
    (by exact_mod_cast Nat.mul_pos (show 0 < BS by omega) (show 0 < gs by omega))
    hkV hcnd le_rfl

/-! ### Characterization of the `vectorRows` tail kernel -/

theorem vecRowsTailKernel_facts {α : Type} (op : α → List α → α) (inF : Int → α)
    (vecs : List (Int → α)) {L : Int} (hL : 1 ≤ L) {M : Nat} (hM : 32 ≤ M)
    {arrOffset arrTail len : Int} (hoffM : arrOffset ≤ (M : Int))
    (htailM : len - arrTail ≤ (M : Int)) :
    ∀ w ∈ vecRowsTailKernel op inF vecs L M arrOffset arrTail len,
      (w.1 < arrOffset ∨ arrTail ≤ w.1)
      ∧ (0 ≤ w.1 → w.2 = op (inF w.1) (vecs.map fun v => v (w.1 % L))) := by
  intro w hw
  unfold vecRowsTailKernel at hw
  simp only [List.mem_flatMap, List.mem_range] at hw
  obtain ⟨blk, hblk, tid, htidM, hw⟩ := hw
  have hMI : (32 : Int) ≤ (M : Int) := by exact_mod_cast hM
  have htidnn : (0 : Int) ≤ (tid : Int) := Int.natCast_nonneg _
  interval_cases blk
  · -- block 0: the head [0, arrOffset)
    simp only [reduceIte] at hw
    obtain ⟨n, k, hk, hidx, hcond, hval⟩ :=
      vectorRowsLoop_writes op inF _ 1 0 _ _ _ _ w hw
    have hk0 : k = 0 := by omega
    subst hk0
    have hw1 : w.1 = (tid : Int) + (n : Int) * (2 * (M : Int)) := by
      rw [hidx]
      push_cast
      ring
    have hn0 : n = 0 := by
      by_contra hne
      have h1 : (1 : Int) ≤ (n : Int) := by
        exact_mod_cast Nat.one_le_iff_ne_zero.mpr hne
      have h2 : 1 * (2 * (M : Int)) ≤ (n : Int) * (2 * (M : Int)) :=
        mul_le_mul_of_nonneg_right h1 (by positivity)
      linarith
    have hw1z : w.1 = (tid : Int) := by
      rw [hw1, hn0]
      push_cast
      ring
    refine ⟨Or.inl (by rw [hw1]; exact hcond), fun _ => ?_⟩
    have hfun : ((fun c : Nat → α => c 0) ∘ fun p : Int → α =>
        loadVec (fun _ => p 0) p L M 1 0 tid) = fun v : Int → α => v (w.1 % L) := by
      funext p
      simp only [Function.comp_apply]
      rw [loadVec_one (fun _ => p 0) p L (by omega) htidM]
      rw [wrapJ_spec hL _ (by positivity)]
      rw [hw1z, zero_add]
    rw [hval, List.map_map, hfun]
  · -- block 1: the tail at arrTail with a base shifted back by M
    simp only [show ((1 : Nat) = 0) = False from eq_false (by norm_num), if_false] at hw
    obtain ⟨n, k, hk, hidx, hcond, hval⟩ :=
      vectorRowsLoop_writes op inF _ 1 (arrTail - (M : Int)) _ _ _ _ w hw
    have hk0 : k = 0 := by omega
    subst hk0
    have hw1 : w.1 = arrTail + (tid : Int) + (n : Int) * (2 * (M : Int)) := by
      rw [hidx]
      push_cast
      ring
    have hprod : (0 : Int) ≤ (n : Int) * (2 * (M : Int)) := by positivity
    refine ⟨Or.inr (by rw [hw1]; linarith), fun h0w => ?_⟩
    have hn0 : n = 0 := by
      by_contra hne
      have h1 : (1 : Int) ≤ (n : Int) := by
        exact_mod_cast Nat.one_le_iff_ne_zero.mpr hne
      have h2 : 1 * (2 * (M : Int)) ≤ (n : Int) * (2 * (M : Int)) :=
        mul_le_mul_of_nonneg_right h1 (by positivity)
      linarith
    have hw1z : w.1 = arrTail + (tid : Int) := by
      rw [hw1, hn0]
      push_cast
      ring
    have htd : arrTail.tmod L = arrTail - L * arrTail.tdiv L := by
      have h5 := Int.tdiv_add_tmod arrTail L
      linarith
    have hbonn : 0 ≤ arrTail.tmod L + (tid : Int) := by
      rcases le_or_lt 0 arrTail with hat | hat
      · have h6 : 0 ≤ arrTail.tmod L := Int.tmod_nonneg _ hat
        linarith
      · have h8 : 0 ≤ (-arrTail).tdiv L := Int.tdiv_nonneg (by omega) (by omega)
        have h9 : (-arrTail).tdiv L = -(arrTail.tdiv L) := Int.neg_tdiv _ _
        have h7 : arrTail.tdiv L ≤ 0 := by omega
        have h10 : L * arrTail.tdiv L ≤ 0 := by nlinarith
        have h11 : 0 ≤ arrTail + (tid : Int) := by rw [← hw1z]; exact h0w
        linarith
    have hcong : wrapJ L (arrTail.tmod L + (tid : Int)) = (arrTail + (tid : Int)) % L := by
      rw [wrapJ_spec hL _ hbonn]
      rw [Int.emod_eq_emod_iff_emod_sub_eq_zero]
      have hdiff : arrTail.tmod L + (tid : Int) - (arrTail + (tid : Int))
          = -(L * arrTail.tdiv L) := by
        rw [htd]
        ring
      rw [hdiff]
      exact Int.emod_eq_zero_of_dvd (dvd_neg.mpr (dvd_mul_right L _))
    have hfun : ((fun c : Nat → α => c 0) ∘ fun p : Int → α =>
        loadVec (fun _ => p 0) p L M 1 (arrTail.tmod L) tid)
        = fun v : Int → α => v (w.1 % L) := by
      funext p
      simp only [Function.comp_apply]
      rw [loadVec_one (fun _ => p 0) p L (by omega) htidM, hcong, hw1z]
    rw [hval, List.map_map, hfun]

theorem vecRowsTailKernel_covers {α : Type} (op : α → List α → α) (inF : Int → α)
    (vecs : List (Int → α)) (L : Int) {M : Nat} (hM : 32 ≤ M)
    {arrOffset arrTail len : Int}
    (hoffM : arrOffset ≤ (M : Int)) (htailM : len - arrTail ≤ (M : Int)) :
    ∀ i : Int, 0 ≤ i → i < len → (i < arrOffset ∨ arrTail ≤ i) →
      i ∈ (vecRowsTailKernel op inF vecs L M arrOffset arrTail len).map Prod.fst := by
  intro i h0 hlen hreg
  have hMI : (32 : Int) ≤ (M : Int) := by exact_mod_cast hM
  unfold vecRowsTailKernel
  simp only [List.map_flatMap]
  rcases hreg with hhead | htail
  · -- head: block 0, thread i
    have htidM : i.toNat < M := by omega
    apply List.mem_flatMap.mpr
    refine ⟨0, by norm_num, ?_⟩
    apply List.mem_flatMap.mpr
    refine ⟨i.toNat, List.mem_range.mpr htidM, ?_⟩
    simp only [reduceIte]
    have hmem := vectorRowsLoop_covers op inF
      (vecs.map fun p => loadVec (fun _ => p 0) p L M 1 0 i.toNat) 1 0 0
      ((arrOffset - ((i.toNat : Nat) : Int)).toNat) ((i.toNat : Nat) : Int) arrOffset
      (2 * (M : Int)) 0 (by linarith) (by norm_num) (by norm_num; omega) le_rfl
    have hx : (0 : Int) + (((i.toNat : Nat) : Int) + ((0 : Nat) : Int) * (2 * (M : Int)))
        * ((1 : Nat) : Int) + ((0 : Nat) : Int) = i := by
      push_cast
      omega
    rw [hx] at hmem
    exact hmem
  · -- tail: block 1, thread i - arrTail
    have htidM : (i - arrTail).toNat < M := by omega
    apply List.mem_flatMap.mpr
    refine ⟨1, by norm_num, ?_⟩
    apply List.mem_flatMap.mpr
    refine ⟨(i - arrTail).toNat, List.mem_range.mpr htidM, ?_⟩
    simp only [show ((1 : Nat) = 0) = False from eq_false (by norm_num), if_false]
    have hmem := vectorRowsLoop_covers op inF
      (vecs.map fun p => loadVec (fun _ => p 0) p L M 1 (arrTail.tmod L) (i - arrTail).toNat)
      1 (arrTail - (M : Int)) 0
      (((len - arrTail + (M : Int)) - ((((i - arrTail).toNat : Nat) : Int) + (M : Int))).toNat)
      ((((i - arrTail).toNat : Nat) : Int) + (M : Int)) (len - arrTail + (M : Int))
      (2 * (M : Int)) 0 (by linarith) (by norm_num) (by norm_num; omega) le_rfl
    have hx : arrTail - (M : Int) + (((((i - arrTail).toNat : Nat) : Int) + (M : Int))
        + ((0 : Nat) : Int) * (2 * (M : Int))) * ((1 : Nat) : Int) + ((0 : Nat) : Int) = i := by
      push_cast
      omega
    rw [hx] at hmem
    exact hmem

/-! ### Host-level correctness of `matrixLinewiseVecRows` -/

theorem vecRowsMain_applied {α : Type} (op : α → List α → α) (outF inF : Int → α)
    (vecs : List (Int → α)) {L : Int} (hL : 1 ≤ L) {V BS occupy : Nat} {aOffI aE T : Int}
    (hV : 1 ≤ V) (hBS : 1 ≤ BS) (hocc : 1 ≤ occupy)
    (hoff0 : 0 ≤ aOffI) (hdvd : (V : Int) ∣ (aE - aOffI))
    (hmain : 0 < aE - aOffI) (hT : aE ≤ T)
    (i : Int) (hi1 : aOffI ≤ i) (hi2 : i < aE) :
    applyWrites outF (vecRowsMainKernel op inF vecs L V BS
        (vecRowsGridSize BS V occupy L.toNat T.toNat) aOffI ((aE - aOffI) / (V : Int))) i
      = op (inF i) (vecs.map fun v => v (i % L)) := by
  have hVpos : (0 : Int) < (V : Int) := by exact_mod_cast hV
  have hTnn : 0 ≤ T := by omega
  have hlenmul : (aE - aOffI) / (V : Int) * (V : Int) = aE - aOffI := Int.ediv_mul_cancel hdvd
  set gs : Nat := vecRowsGridSize BS V occupy L.toNat T.toNat with hgsdef
  have hL1 : 1 ≤ L.toNat := by omega
  have hT1 : 1 ≤ T.toNat := by omega
  set g : Nat := Nat.gcd (BS * V) L.toNat with hgdef
  have hg1 : 1 ≤ g := Nat.gcd_pos_of_pos_right _ (by omega)
  have hgL : g ∣ L.toNat := Nat.gcd_dvd_right _ _
  have hgB : g ∣ BS * V := Nat.gcd_dvd_left _ _
  set egs : Nat := L.toNat / g with hegsdef
  have hegs1 : 1 ≤ egs := (Nat.one_le_div_iff (by omega)).mpr (Nat.le_of_dvd (by omega) hgL)
  have hegsg : egs * g = L.toNat := Nat.div_mul_cancel hgL
  have hgseq : gs = min (ceildivN T.toNat (BS * V)) (ceildivN occupy egs * egs) := by
    rw [hgsdef]
    unfold vecRowsGridSize raftGcd
    dsimp only
  have hgs1 : 1 ≤ gs := by
    rw [hgseq]
    refine le_min (ceildivN_pos (by omega) (Nat.mul_pos (by omega) (by omega))) ?_
    have h1 : 1 ≤ ceildivN occupy egs := ceildivN_pos (by omega) (by omega)
    exact Nat.mul_pos (by omega) (by omega)
  have hcase : (L ∣ (BS : Int) * (V : Int) * (gs : Int))
      ∨ (aE - aOffI) / (V : Int) ≤ (BS : Int) * (gs : Int) := by
    rcases min_cases (ceildivN T.toNat (BS * V)) (ceildivN occupy egs * egs) with
      ⟨hmin, _⟩ | ⟨hmin, _⟩
    · right
      have h1 : T.toNat ≤ ceildivN T.toNat (BS * V) * (BS * V) :=
        ceildivN_mul_ge _ (Nat.mul_pos (by omega) (by omega))
      have h2 : T.toNat ≤ gs * (BS * V) := by
        rw [hgseq, hmin]
        exact h1
      have h4 : ((T.toNat : Nat) : Int) = T := Int.toNat_of_nonneg hTnn
      have h3 : T ≤ ((gs * (BS * V) : Nat) : Int) := by
        have h5 : ((T.toNat : Nat) : Int) ≤ ((gs * (BS * V) : Nat) : Int) := by
          exact_mod_cast h2
        omega
      have h5 : (aE - aOffI) / (V : Int) * (V : Int) ≤ ((BS : Int) * (gs : Int)) * (V : Int) := by
        rw [hlenmul]
        calc aE - aOffI ≤ T := by omega
          _ ≤ ((gs * (BS * V) : Nat) : Int) := h3
          _ = ((BS : Int) * (gs : Int)) * (V : Int) := by push_cast; ring
      exact le_of_mul_le_mul_right h5 hVpos
    · left
      have hegsgs : egs ∣ gs := by
        rw [hgseq, hmin]
        exact dvd_mul_left egs (ceildivN occupy egs)
      obtain ⟨t, ht⟩ := hegsgs
      obtain ⟨x, hx⟩ := hgB
      have hnat : L.toNat ∣ BS * V * gs := by
        refine ⟨x * t, ?_⟩
        rw [ht, hx, ← hegsg]
        ring
      have h6 : ((L.toNat : Nat) : Int) ∣ ((BS * V * gs : Nat) : Int) :=
        Int.natCast_dvd_natCast.mpr hnat
      have h7 : ((L.toNat : Nat) : Int) = L := by omega
      have h8 : ((BS * V * gs : Nat) : Int) = (BS : Int) * (V : Int) * (gs : Int) := by
        push_cast
        ring
      rw [h7, h8] at h6
      exact h6
  apply applyWrites_eq_of_mem
  · intro w hw hwi
    have hval := (vecRowsMainKernel_writes op inF vecs hL hV hBS hoff0 hcase w hw).2.2
    rw [hwi] at hval
    exact hval
  · have hex := vecRowsMainKernel_covers op inF vecs L hV hBS hgs1 i hi1
      (by rw [hlenmul]; omega)
    simp only [List.mem_map] at hex
    obtain ⟨w, hw, hwi⟩ := hex
    exact ⟨w, hw, hwi⟩

theorem vecRowsTail_applied {α : Type} (op : α → List α → α) (g inF : Int → α)
    (vecs : List (Int → α)) {L : Int} (hL : 1 ≤ L) {M : Nat} (hM : 32 ≤ M)
    {aOffI aE T : Int}
    (hoffM : aOffI ≤ (M : Int)) (htailM : T - aE ≤ (M : Int)) (i : Int)
    (h0 : 0 ≤ i) (hiT : i < T) (hreg : i < aOffI ∨ aE ≤ i) :
    applyWrites g (vecRowsTailKernel op inF vecs L M aOffI aE T) i
      = op (inF i) (vecs.map fun v => v (i % L)) := by
  apply applyWrites_eq_of_mem
  · intro w hw hwi
    have hfacts := vecRowsTailKernel_facts op inF vecs hL hM hoffM htailM w hw
    have hval := hfacts.2 (by rw [hwi]; exact h0)
    rw [hwi] at hval
    exact hval
  · have hex := vecRowsTailKernel_covers op inF vecs L hM hoffM htailM i h0 hiT hreg
    simp only [List.mem_map] at hex
    obtain ⟨w, hw, hwi⟩ := hex
    exact ⟨w, hw, hwi⟩

theorem vecRowsTail_skips {α : Type} (op : α → List α → α) (g inF : Int → α)
    (vecs : List (Int → α)) {L : Int} (hL : 1 ≤ L) {M : Nat} (hM : 32 ≤ M)
    {aOffI aE T : Int} (hoffM : aOffI ≤ (M : Int)) (htailM : T - aE ≤ (M : Int))
    (i : Int) (hreg1 : aOffI ≤ i) (hreg2 : i < aE) :
    applyWrites g (vecRowsTailKernel op inF vecs L M aOffI aE T) i = g i := by
  apply applyWrites_eq_of_forall_ne
  intro w hw
  have hfacts := vecRowsTailKernel_facts op inF vecs hL hM hoffM htailM w hw
  rcases hfacts.1 with h | h <;> omega

theorem matrixLinewiseVecRows_correct {α : Type} (op : α → List α → α)
    (outF inF : Int → α) (vecs : List (Int → α)) {rowLen nRows : Int}
    {s W BS occupy addr : Nat}
    (hrow : 1 ≤ rowLen) (hn : 1 ≤ nRows) (hs : 1 ≤ s) (hW : 1 ≤ W) (hsW : s ∣ W)
    (haddr : s ∣ addr) (hBS : 1 ≤ BS) (hocc : 1 ≤ occupy) :
    ∀ i : Int, 0 ≤ i → i < rowLen * nRows →
      (matrixLinewiseVecRows op outF inF vecs rowLen nRows s W BS occupy addr).1 i
        = op (inF i) (vecs.map fun v => v (i % rowLen)) := by
  intro i h0 hiT
  have hT1 : 1 ≤ rowLen * nRows := by nlinarith
  have hT0 : (0 : Int) ≤ rowLen * nRows := by omega
  have hV1 : 1 ≤ W / s := (Nat.one_le_div_iff (by omega)).mpr (Nat.le_of_dvd (by omega) hsW)
  have haOffV : alignedOffN s W addr < W / s := alignedOffN_lt hs hW hsW haddr
  have hEndle : alignedEndE s W addr (rowLen * nRows) ≤ rowLen * nRows :=
    alignedEndE_le hT0 hs hsW haddr
  have htailV : rowLen * nRows - alignedEndE s W addr (rowLen * nRows) < ((W / s : Nat) : Int) :=
    alignedEndE_tail_lt hT0 hs hW hsW haddr
  have hdvd : ((W / s : Nat) : Int) ∣
      (alignedEndE s W addr (rowLen * nRows) - (alignedOffN s W addr : Int)) :=
    alignedLen_dvd (rowLen * nRows) hs hW hsW haddr
  have hM32 : 32 ≤ max 32 W := le_max_left 32 W
  have hVM : W / s ≤ max 32 W := le_trans (Nat.div_le_self W s) (le_max_right 32 W)
  have hoffM : ((alignedOffN s W addr : Nat) : Int) ≤ ((max 32 W : Nat) : Int) := by
    have h1 : alignedOffN s W addr ≤ max 32 W := le_trans (le_of_lt haOffV) hVM
    exact_mod_cast h1
  have htailM : rowLen * nRows - alignedEndE s W addr (rowLen * nRows)
      ≤ ((max 32 W : Nat) : Int) := by
    have h1 : ((W / s : Nat) : Int) ≤ ((max 32 W : Nat) : Int) := by exact_mod_cast hVM
    omega
  unfold matrixLinewiseVecRows
  dsimp only
  by_cases htailif : alignedEndE s W addr (rowLen * nRows) - ((alignedOffN s W addr : Nat) : Int)
      < rowLen * nRows
  · rw [if_pos htailif]
    by_cases hmain : (0 : Int)
        < alignedEndE s W addr (rowLen * nRows) - ((alignedOffN s W addr : Nat) : Int)
    · rw [if_pos hmain]
      dsimp only
      by_cases hreg : ((alignedOffN s W addr : Nat) : Int) ≤ i
          ∧ i < alignedEndE s W addr (rowLen * nRows)
      · rw [vecRowsTail_skips op _ inF vecs hrow hM32 hoffM htailM i hreg.1 hreg.2]
        exact vecRowsMain_applied op outF inF vecs hrow hV1 hBS hocc
          (Int.natCast_nonneg _) hdvd hmain hEndle i hreg.1 hreg.2
      · refine vecRowsTail_applied op _ inF vecs hrow hM32 hoffM htailM i h0 hiT ?_
        omega
    · rw [if_neg hmain]
      dsimp only
      refine vecRowsTail_applied op _ inF vecs hrow hM32 hoffM htailM i h0 hiT ?_
      omega
  · rw [if_neg htailif]
    have hmain : (0 : Int)
        < alignedEndE s W addr (rowLen * nRows) - ((alignedOffN s W addr : Nat) : Int) := by
      omega
    rw [if_pos hmain]
    dsimp only
    exact vecRowsMain_applied op outF inF vecs hrow hV1 hBS hocc
      (Int.natCast_nonneg _) hdvd hmain hEndle i (by omega) (by omega)

/-! ### Correctness and launch counts of `MatrixLinewiseOp::run` -/

theorem run_correct {α : Type} (op : α → List α → α)
    (outF inF : Int → α) (vecs : List (Int → α)) {rowLen nRows : Int}
    {s addrIn addrOut BS occupy : Nat} (alongLines : Bool)
    (hrow : 1 ≤ rowLen) (hn : 1 ≤ nRows) (hs : 1 ≤ s) (hs16 : s ∣ 16)
    (haddr : s ∣ addrIn) (hBS32 : 32 ∣ BS) (hBS : 1 ≤ BS) (hocc : 1 ≤ occupy) :
    ∀ i : Int, 0 ≤ i → i < rowLen * nRows →
      (MatrixLinewiseOp.run op outF inF vecs rowLen nRows alongLines
          s addrIn addrOut BS occupy).1 i
        = linewiseSpec op inF vecs rowLen alongLines i := by
  intro i h0 hiT
  obtain ⟨hsW, hW16, _⟩ := chooseVecBytes_spec addrIn addrOut hs hs16
  have hW : 1 ≤ chooseVecBytes s addrIn addrOut 16 :=
    Nat.pos_of_dvd_of_pos hW16 (by norm_num)
  unfold MatrixLinewiseOp.run linewiseSpec
  dsimp only
  cases alongLines with
  | false =>
    simp only [reduceIte, Bool.false_eq_true, if_false]
    exact matrixLinewiseVecCols_correct op outF inF vecs hrow hn hs hW hsW haddr
      hBS32 hBS hocc i h0 hiT
  | true =>
    simp only [reduceIte, if_true]
    exact matrixLinewiseVecRows_correct op outF inF vecs hrow hn hs hW hsW haddr
      hBS hocc i h0 hiT

theorem matrixLinewiseVecCols_launches {α : Type} (op : α → List α → α)
    (outF inF : Int → α) (vecs : List (Int → α)) {rowLen nRows : Int}
    {s W BS occupy addr : Nat}
    (hrow : 1 ≤ rowLen) (hn : 1 ≤ nRows) (hs : 1 ≤ s) (hsW : s ∣ W) (haddr : s ∣ addr) :
    (matrixLinewiseVecCols op outF inF vecs rowLen nRows s W BS occupy addr).2 = 1
    ∨ (matrixLinewiseVecCols op outF inF vecs rowLen nRows s W BS occupy addr).2 = 2 := by
  have hT1 : (1 : Int) ≤ rowLen * nRows := by nlinarith
  have hEndle : alignedEndE s W addr (rowLen * nRows) ≤ rowLen * nRows :=
    alignedEndE_le (by omega) hs hsW haddr
  unfold matrixLinewiseVecCols
  dsimp only
  by_cases htailif : alignedEndE s W addr (rowLen * nRows) - ((alignedOffN s W addr : Nat) : Int)
      < rowLen * nRows
  · rw [if_pos htailif]
    by_cases hmain : (0 : Int)
        < alignedEndE s W addr (rowLen * nRows) - ((alignedOffN s W addr : Nat) : Int)
    · rw [if_pos hmain]
      right
      rfl
    · rw [if_neg hmain]
      left
      rfl
  · rw [if_neg htailif]
    have hmain : (0 : Int)
        < alignedEndE s W addr (rowLen * nRows) - ((alignedOffN s W addr : Nat) : Int) := by
      have h1 : (0 : Int) ≤ ((alignedOffN s W addr : Nat) : Int) := Int.natCast_nonneg _
      omega
    rw [if_pos hmain]
    left
    rfl

theorem matrixLinewiseVecRows_launches {α : Type} (op : α → List α → α)
    (outF inF : Int → α) (vecs : List (Int → α)) {rowLen nRows : Int}
    {s W BS occupy addr : Nat}
    (hrow : 1 ≤ rowLen) (hn : 1 ≤ nRows) (hs : 1 ≤ s) (hsW : s ∣ W) (haddr : s ∣ addr) :
    (matrixLinewiseVecRows op outF inF vecs rowLen nRows s W BS occupy addr).2 = 1
    ∨ (matrixLinewiseVecRows op outF inF vecs rowLen nRows s W BS occupy addr).2 = 2 := by
  have hT1 : (1 : Int) ≤ rowLen * nRows := by nlinarith
  have hEndle : alignedEndE s W addr (rowLen * nRows) ≤ rowLen * nRows :=
    alignedEndE_le (by omega) hs hsW haddr
  unfold matrixLinewiseVecRows
  dsimp only
  by_cases htailif : alignedEndE s W addr (rowLen * nRows) - ((alignedOffN s W addr : Nat) : Int)
      < rowLen * nRows
  · rw [if_pos htailif]
    by_cases hmain : (0 : Int)
        < alignedEndE s W addr (rowLen * nRows) - ((alignedOffN s W addr : Nat) : Int)
    · rw [if_pos hmain]
      right
      rfl
    · rw [if_neg hmain]
      left
      rfl
  · rw [if_neg htailif]
    have hmain : (0 : Int)
        < alignedEndE s W addr (rowLen * nRows) - ((alignedOffN s W addr : Nat) : Int) := by
      have h1 : (0 : Int) ≤ ((alignedOffN s W addr : Nat) : Int) := Int.natCast_nonneg _
      omega
    rw [if_pos hmain]
    left
    rfl

/-! ### Per-thread work bounds and thread uniqueness for the boundary kernel -/

theorem vectorColsInner_length {α : Type} (op : α → List α → α) (inF : Int → α)
    (vecs : List (Int → α)) (L : Int) (k : Nat) (pos d m : Int) (args : List α) :
    (vectorColsInner op inF vecs L k pos d m args).1.length = k := by
  have h := congrArg List.length (vectorColsInner_fst op inF vecs L k pos d m args)
  simpa using h

theorem vectorColsLoop_length {α : Type} (op : α → List α → α) (inF : Int → α)
    (vecs : List (Int → α)) (L : Int) (V : Nat) :
    ∀ (fuel : Nat) (pos e d m : Int) (args : List α) (upd : Bool),
      (vectorColsLoop op inF vecs L V fuel pos e d m args upd).length ≤ fuel * V := by
  intro fuel
  induction fuel with
  | zero => intro pos e d m args upd; simp [vectorColsLoop]
  | succ f ih =>
    intro pos e d m args upd
    rw [vectorColsLoop]
    by_cases hpe : pos < e
    · rw [if_pos hpe]
      dsimp only
      rw [List.length_append, vectorColsInner_length op inF vecs L V]
      have h3 : (f + 1) * V = V + f * V := by ring
      rw [h3]
      exact Nat.add_le_add_left (ih _ _ _ _ _ _) V
    · rw [if_neg hpe]
      simp

theorem tail_thread_unique {α : Type} (op : α → List α → α) (inF : Int → α)
    (vecs : List (Int → α)) {L : Int} (hL : 1 ≤ L) {aOffI aE T : Int} {M : Nat}
    (hoffM : aOffI ≤ (M : Int)) (htailM : T - aE ≤ (M : Int)) (hdeg : aOffI ≤ aE)
    (i : Int) (h0 : 0 ≤ i) (hiT : i < T) (hreg : i < aOffI ∨ aE ≤ i) :
    ∃! bt : Nat × Nat, bt.1 < 2 ∧ bt.2 < M
      ∧ i ∈ (vecColsTailThread op inF vecs L aOffI aE T bt.1 bt.2).map Prod.fst := by
  have hex := vecColsTailKernel_covers op inF vecs L hoffM htailM i h0 hiT hreg
  unfold vecColsTailKernel at hex
  simp only [List.map_flatMap, List.mem_flatMap, List.mem_range] at hex
  obtain ⟨blk, hblk, tid, htid, hmem⟩ := hex
  have hid : ∀ b t : Nat,
      i ∈ (vecColsTailThread op inF vecs L aOffI aE T b t).map Prod.fst → b < 2 →
      (b = 0 ∧ (t : Int) = i ∧ i < aOffI) ∨ (b = 1 ∧ aE + (t : Int) = i) := by
    intro b t hm hb
    simp only [List.mem_map] at hm
    obtain ⟨w, hw, hwi⟩ := hm
    interval_cases b
    · obtain ⟨h1, h2, _⟩ := vecColsTailThread_writes0 op inF vecs hL t w hw
      exact Or.inl ⟨rfl, by omega, by omega⟩
    · obtain ⟨h1, h2, _⟩ := vecColsTailThread_writes1 op inF vecs hL t w hw
      exact Or.inr ⟨rfl, by omega⟩
  refine ⟨(blk, tid), ⟨hblk, htid, hmem⟩, ?_⟩
  rintro ⟨b2, t2⟩ ⟨hb2, ht2, hmem2⟩
  rcases hid blk tid hmem hblk with ⟨hb0, hti, hlt⟩ | ⟨hb1, hti⟩
  · rcases hid b2 t2 hmem2 hb2 with ⟨hb0x, htix, _⟩ | ⟨hb1x, htix⟩
    · have he1 : b2 = blk := by omega
      have he2 : t2 = tid := by omega
      rw [he1, he2]
    · exfalso
      have h9 : (0 : Int) ≤ (t2 : Int) := Int.natCast_nonneg _
      omega
  · rcases hid b2 t2 hmem2 hb2 with ⟨hb0x, htix, hltx⟩ | ⟨hb1x, htix⟩
    · exfalso
      have h9 : (0 : Int) ≤ (tid : Int) := Int.natCast_nonneg _
      omega
    · have he1 : b2 = blk := by omega
      have he2 : t2 = tid := by omega
      rw [he1, he2]

/-! ### The claims -/

/-- C1: after `MatrixLinewiseOp::run`, `out[i] = op(in[i], vec_k[index_k(i)]...)` for
every valid flattened index `i`, where the vector index is `i % rowLen` along lines and
`i / rowLen` across lines, for every scalar-aligned byte address of the pointers. -/
theorem run_output_correct {α : Type} (op : α → List α → α)
    (outF inF : Int → α) (vecs : List (Int → α)) {rowLen nRows : Int}
    {s addrIn addrOut BS occupy : Nat} (alongLines : Bool)
    (hrow : 1 ≤ rowLen) (hn : 1 ≤ nRows) (hs : 1 ≤ s) (hs16 : s ∣ 16)
    (haddr : s ∣ addrIn) (hBS32 : 32 ∣ BS) (hBS : 1 ≤ BS) (hocc : 1 ≤ occupy)
    (i : Int) (h0 : 0 ≤ i) (hiT : i < rowLen * nRows) :
    (MatrixLinewiseOp.run op outF inF vecs rowLen nRows alongLines
        s addrIn addrOut BS occupy).1 i
      = op (inF i) (vecs.map fun v => v (if alongLines then i % rowLen else i / rowLen)) :=
  run_correct op outF inF vecs alongLines hrow hn hs hs16 haddr hBS32 hBS hocc i h0 hiT

/-- Witness for C1 at a concrete instance of the C9 scenario: index 5 of the 4 by 3
subtract run holds `6 - 20 = -14`. -/
theorem run_output_correct_witness :
    ((4 : Nat) ∣ 16 ∧ 32 ∣ 256)
    ∧ (MatrixLinewiseOp.run (fun (a : Int) (l : List Int) => a - l.sum) (fun _ => (0 : Int))
        (fun j => j + 1) [fun r => 10 * (r + 1)] 4 3 false 4 0 0 256 16).1 5 = -14 :=
  ⟨by decide, (run_output_correct (fun (a : Int) (l : List Int) => a - l.sum)
    (fun _ => (0 : Int)) (fun j => j + 1) [fun r => 10 * (r + 1)] false
    (by norm_num) (by norm_num) (by norm_num) (by norm_num) (by norm_num)
    (by norm_num) (by norm_num) (by norm_num) 5 (by norm_num) (by norm_num)).trans
    (by decide)⟩

/-- C2 counterexample: at rowLen 6, nRows 1, BlockSize 256, VecElems 4, occupancy 16,
the grid size is `min(ceildiv(6, 1024), ceildiv(16, 3) * 3) = 1`, which is not a multiple
of `rowLen / gcd(blockWorkSize, rowLen) = 3`. -/
theorem vecRowsGridSize_not_egs_multiple :
    ¬ ((6 / Nat.gcd (256 * 4) 6) ∣ vecRowsGridSize 256 4 16 6 6) := by decide

/-- C2 (amended): the grid size `matrixLinewiseVecRows` computes is an exact multiple of
`rowLen / gcd(blockWorkSize, rowLen)` unless the total-length bound
`ceildiv(totalLen, blockWorkSize)` is the smaller branch of the min, in which case the
grid size equals that bound. -/
theorem vecRowsGridSize_egs_multiple_or_capped (BS V occupy rowLenN totalLenN : Nat) :
    (rowLenN / Nat.gcd (BS * V) rowLenN) ∣ vecRowsGridSize BS V occupy rowLenN totalLenN
    ∨ vecRowsGridSize BS V occupy rowLenN totalLenN = ceildivN totalLenN (BS * V) := by
  unfold vecRowsGridSize raftGcd
  dsimp only
  rcases min_cases (ceildivN totalLenN (BS * V))
      (ceildivN occupy (rowLenN / Nat.gcd (BS * V) rowLenN)
        * (rowLenN / Nat.gcd (BS * V) rowLenN)) with ⟨hmin, _⟩ | ⟨hmin, _⟩
  · right
    rw [hmin]
  · left
    rw [hmin]
    exact dvd_mul_left _ _

/-- C3: every write the `vectorCols` main kernel performs combines the matrix element at
flat position `w.1` with the vector values at row index `w.1 / rowLen`: the incrementally
maintained `(rowDiv, rowMod)` pair always agrees with the division pair, including when
`rowLen < VecElems` and several row transitions happen inside one wide chunk. -/
theorem vectorCols_incremental_rowDiv {α : Type} (op : α → List α → α) (inF : Int → α)
    (vecs : List (Int → α)) {L : Int} (hL : 1 ≤ L) (V BS gs : Nat)
    {arrOffset len ept : Int} (hoff : 0 ≤ arrOffset) (hept : 0 ≤ ept) :
    ∀ w ∈ vecColsMainKernel op inF vecs L V BS gs arrOffset len ept,
      w.2 = op (inF w.1) (vecs.map fun v => v (w.1 / L)) :=
  vecColsMainKernel_writes op inF vecs hL V BS gs hoff hept

/-- Witness for C3 with rowLen 2 smaller than VecElems 4: the write at position 3 holds
`3 + 100 * (3 / 2) = 103`. -/
theorem vectorCols_incremental_rowDiv_witness :
    ((1 : Int) ≤ 2)
    ∧ (((3 : Int), (103 : Int)).2 = (fun (a : Int) (l : List Int) => a + l.sum)
        ((fun j : Int => j) ((3 : Int), (103 : Int)).1)
        ([fun d : Int => 100 * d].map fun v => v (((3 : Int), (103 : Int)).1 / 2))) :=
  ⟨by norm_num, @vectorCols_incremental_rowDiv Int (fun (a : Int) (l : List Int) => a + l.sum)
    (fun j : Int => j) [fun d : Int => 100 * d] 2 (by norm_num) 4 32 1 0 8 8
    (by norm_num) (by norm_num) ((3 : Int), (103 : Int)) (by decide)⟩

/-- C4: the width-narrowing recursion of `MatrixLinewiseOp::run` (modelled with fuel, so
it terminates by construction) dispatches with a width at which the two pointers share
alignment offsets, or with the scalar width in the worst case. -/
theorem run_width_alignment {s : Nat} (a b : Nat) (hs : 1 ≤ s) (hs16 : s ∣ 16) :
    areSameAlignOffsets (chooseVecBytes s a b 16) a b ∨ chooseVecBytes s a b 16 = s := by
  obtain ⟨_, _, h3⟩ := chooseVecBytes_spec a b hs hs16
  rcases h3 with h | h
  · right
    exact h
  · left
    exact h

/-- Witness for C4: scalar size 4, byte addresses 3 and 7 (which only agree modulo 4). -/
theorem run_width_alignment_witness :
    ((4 : Nat) ∣ 16)
    ∧ (areSameAlignOffsets (chooseVecBytes 4 3 7 16) 3 7 ∨ chooseVecBytes 4 3 7 16 = 4) :=
  ⟨by decide, run_width_alignment 3 7 (by decide) (by decide)⟩

/-- C5 counterexample: with the negative block offset `-1` (which the vectorRows tail
kernel can pass in the degenerate alignment case), the staged chunk is `p[-1]`, not
`p[(blockOffset + t * VecElems + k) mod rowLen] = p[1]`. -/
theorem loadVec_negative_offset_counterexample :
    ¬ (loadVec (fun _ => (0 : Int)) (fun j => j) 2 1 1 (-1) 0 0
      = (fun j => j) (((-1 : Int) + ((0 * 1 + 0 : Nat) : Int)) % 2)) := by decide

/-- C5 (amended): for every `rowLen ≥ 1` and every nonnegative block offset, the chunk
`loadVec` returns to thread `tid` has `p[(blockOffset + tid * VecElems + k) mod rowLen]`
as its `k`-th scalar. -/
theorem loadVec_chunk_spec {α : Type} (shm0 : Nat → α) (p : Int → α) {L : Int} (hL : 1 ≤ L)
    {BS V : Nat} (hBS : 1 ≤ BS) {blockOffset : Int} (hbo : 0 ≤ blockOffset)
    {tid k : Nat} (htid : tid < BS) (hk : k < V) :
    loadVec shm0 p L BS V blockOffset tid k
      = p ((blockOffset + ((tid * V + k : Nat) : Int)) % L) :=
  loadVec_spec shm0 p hL hBS hbo htid hk

/-- Witness for C5: rowLen 3, two threads, two-wide chunks, block offset 2; thread 1
slot 1 reads `p[(2 + 3) mod 3] = p[2] = 102`, exercising the wraparound. -/
theorem loadVec_chunk_spec_witness :
    ((1 : Int) ≤ 3)
    ∧ loadVec (fun _ => (0 : Int)) (fun j => 100 + j) 3 2 2 2 1 1
      = (fun j => (100 : Int) + j) (((2 : Int) + ((1 * 2 + 1 : Nat) : Int)) % 3) :=
  ⟨by norm_num, loadVec_chunk_spec (fun _ => (0 : Int)) (fun j => 100 + j)
    (by norm_num) (by norm_num) (by norm_num) (by norm_num) (by norm_num)⟩

/-- C6: at scalar size 4, pointers at byte offset 4 modulo 16, rowLen 1, nRows 1, the
aligned region degenerates (`alignedOff = 3`, `alignedEnd = -1`) and the two boundary
blocks write the indices `[0, 1, 2]` and `[-1, 0]`: they overlap at 0, write out of
bounds at `-1`, and exceed `totalLen = 1`, so the main/head/tail regions are neither
pairwise disjoint nor exactly a partition of the valid index range. -/
theorem tailKernel_regions_overlap_eval :
    ((alignedOffN 4 16 4 : Int) = 3 ∧ alignedEndE 4 16 4 1 = -1)
    ∧ ((vecColsTailKernel (fun (a : Int) _ => a) (fun i => i) ([] : List (Int → Int)) 1 32
        ((alignedOffN 4 16 4 : Nat) : Int) (alignedEndE 4 16 4 1) 1).map Prod.fst
      = [0, 1, 2, -1, 0]) := by decide

/-- C7: every call to `MatrixLinewiseOp::run` enqueues between one and four kernel
launches (in this engine always one or two: the main kernel when the aligned region is
nonempty, the boundary kernel when the matrix is not fully aligned). -/
theorem run_launch_count {α : Type} (op : α → List α → α)
    (outF inF : Int → α) (vecs : List (Int → α)) {rowLen nRows : Int}
    {s addrIn addrOut BS occupy : Nat} (alongLines : Bool)
    (hrow : 1 ≤ rowLen) (hn : 1 ≤ nRows) (hs : 1 ≤ s) (hs16 : s ∣ 16)
    (haddr : s ∣ addrIn) :
    1 ≤ (MatrixLinewiseOp.run op outF inF vecs rowLen nRows alongLines
        s addrIn addrOut BS occupy).2
    ∧ (MatrixLinewiseOp.run op outF inF vecs rowLen nRows alongLines
        s addrIn addrOut BS occupy).2 ≤ 4 := by
  obtain ⟨hsW, hW16, _⟩ := chooseVecBytes_spec addrIn addrOut hs hs16
  cases alongLines with
  | false =>
    have heq : (MatrixLinewiseOp.run op outF inF vecs rowLen nRows false
          s addrIn addrOut BS occupy).2
        = (matrixLinewiseVecCols op outF inF vecs rowLen nRows s
            (chooseVecBytes s addrIn addrOut 16) BS occupy addrIn).2 := rfl
    rw [heq]
    rcases @matrixLinewiseVecCols_launches α op outF inF vecs rowLen nRows s
        (chooseVecBytes s addrIn addrOut 16) BS occupy addrIn hrow hn hs hsW haddr with h | h
    · rw [h]
      exact ⟨by norm_num, by norm_num⟩
    · rw [h]
      exact ⟨by norm_num, by norm_num⟩
  | true =>
    have heq : (MatrixLinewiseOp.run op outF inF vecs rowLen nRows true
          s addrIn addrOut BS occupy).2
        = (matrixLinewiseVecRows op outF inF vecs rowLen nRows s
            (chooseVecBytes s addrIn addrOut 16) BS occupy addrIn).2 := rfl
    rw [heq]
    rcases @matrixLinewiseVecRows_launches α op outF inF vecs rowLen nRows s
        (chooseVecBytes s addrIn addrOut 16) BS occupy addrIn hrow hn hs hsW haddr with h | h
    · rw [h]
      exact ⟨by norm_num, by norm_num⟩
    · rw [h]
      exact ⟨by norm_num, by norm_num⟩

/-- Witness for C7 at the C9 shape: the fully aligned 4 by 3 run enqueues one launch. -/
theorem run_launch_count_witness :
    ((4 : Nat) ∣ 16)
    ∧ 1 ≤ (MatrixLinewiseOp.run (fun (a : Int) _ => a) (fun _ => (0 : Int)) (fun j => j)
        [] 4 3 false 4 0 0 256 16).2
    ∧ (MatrixLinewiseOp.run (fun (a : Int) _ => a) (fun _ => (0 : Int)) (fun j => j)
        [] 4 3 false 4 0 0 256 16).2 ≤ 4 :=
  ⟨by decide, run_launch_count (fun (a : Int) _ => a) (fun _ => (0 : Int)) (fun j => j)
    [] false (by norm_num) (by norm_num) (by norm_num) (by norm_num) (by norm_num)⟩

/-- C8: with the identity operator the engine copies the input to the output at every
valid index, for both strategies and any vector content. -/
theorem run_identity_op {α : Type} (outF inF : Int → α) (vecs : List (Int → α))
    {rowLen nRows : Int} {s addrIn addrOut BS occupy : Nat} (alongLines : Bool)
    (hrow : 1 ≤ rowLen) (hn : 1 ≤ nRows) (hs : 1 ≤ s) (hs16 : s ∣ 16)
    (haddr : s ∣ addrIn) (hBS32 : 32 ∣ BS) (hBS : 1 ≤ BS) (hocc : 1 ≤ occupy)
    (i : Int) (h0 : 0 ≤ i) (hiT : i < rowLen * nRows) :
    (MatrixLinewiseOp.run (fun a _ => a) outF inF vecs rowLen nRows alongLines
        s addrIn addrOut BS occupy).1 i = inF i :=
  run_correct (fun a _ => a) outF inF vecs alongLines hrow hn hs hs16 haddr hBS32 hBS hocc
    i h0 hiT

/-- Witness for C8: the along-lines identity run returns the input at index 7. -/
theorem run_identity_op_witness :
    ((4 : Nat) ∣ 16 ∧ 32 ∣ 256)
    ∧ (MatrixLinewiseOp.run (fun a _ => a) (fun _ => (0 : Int)) (fun j => 5 * j)
        [fun r => r + 1000] 4 3 true 4 0 0 256 16).1 7 = (fun j : Int => 5 * j) 7 :=
  ⟨by decide, run_identity_op (fun _ => (0 : Int)) (fun j => 5 * j) [fun r => r + 1000]
    true (by norm_num) (by norm_num) (by norm_num) (by norm_num) (by norm_num)
    (by norm_num) (by norm_num) (by norm_num) 7 (by norm_num) (by norm_num)⟩

set_option maxRecDepth 100000 in
/-- C9: the end-to-end scenario: rowLen 4, nRows 3, matrix `[[1,2,3,4],[5,6,7,8],
[9,10,11,12]]` flattened as `in[i] = i + 1`, per-row vector `[10, 20, 30]`, subtraction,
alongLines false, aligned pointers: the engine produces exactly
`[[-9,-8,-7,-6],[-15,-14,-13,-12],[-21,-20,-19,-18]]`. -/
theorem run_end_to_end_scenario :
    ((List.range 12).map fun i =>
      (MatrixLinewiseOp.run (fun (a : Int) (l : List Int) => a - l.sum) (fun _ => (0 : Int))
        (fun j => j + 1) [fun r => 10 * (r + 1)] 4 3 false 4 0 0 256 16).1 (i : Int))
    = [-9, -8, -7, -6, -15, -14, -13, -12, -21, -20, -19, -18] := by decide

/-- C10 counterexample: in the degenerate configuration of C6 (`alignedOff = 3`,
`alignedEnd = -1`, `totalLen = 1`), head-block thread 0 and tail-block thread 1 both
process element 0, so a head/tail element is handled by two distinct threads rather than
exactly one. -/
theorem tail_element_two_threads :
    ((vecColsTailThread (fun (a : Int) _ => a) (fun i => i) [] 1 3 (-1) 1 0 0).map Prod.fst
      = [0])
    ∧ ((vecColsTailThread (fun (a : Int) _ => a) (fun i => i) [] 1 3 (-1) 1 1 1).map Prod.fst
      = [0]) := by decide

/-- C10 (amended): the unaligned head and tail lengths are each strictly smaller than
the boundary block dimension `MaxOffset = max(32, VecBytes)`, each boundary-kernel
thread processes at most one scalar element, and — provided the aligned region is not
degenerate (`alignedOff ≤ alignedEnd`) — every head/tail element is processed by exactly
one thread. -/
theorem tail_boundary_structure {α : Type} (op : α → List α → α) (inF : Int → α)
    (vecs : List (Int → α)) {rowLen nRows : Int} {s W addr : Nat}
    (hrow : 1 ≤ rowLen) (hn : 1 ≤ nRows) (hs : 1 ≤ s) (hW : 1 ≤ W)
    (hsW : s ∣ W) (haddr : s ∣ addr) :
    ((alignedOffN s W addr : Nat) : Int) < ((max 32 W : Nat) : Int)
    ∧ rowLen * nRows - alignedEndE s W addr (rowLen * nRows) < ((max 32 W : Nat) : Int)
    ∧ (∀ blk tid : Nat, (vecColsTailThread op inF vecs rowLen
        ((alignedOffN s W addr : Nat) : Int) (alignedEndE s W addr (rowLen * nRows))
        (rowLen * nRows) blk tid).length ≤ 1)
    ∧ (((alignedOffN s W addr : Nat) : Int) ≤ alignedEndE s W addr (rowLen * nRows) →
       ∀ i : Int, 0 ≤ i → i < rowLen * nRows →
         (i < ((alignedOffN s W addr : Nat) : Int)
           ∨ alignedEndE s W addr (rowLen * nRows) ≤ i) →
         ∃! bt : Nat × Nat, bt.1 < 2 ∧ bt.2 < max 32 W
           ∧ i ∈ (vecColsTailThread op inF vecs rowLen
               ((alignedOffN s W addr : Nat) : Int)
               (alignedEndE s W addr (rowLen * nRows)) (rowLen * nRows)
               bt.1 bt.2).map Prod.fst) := by
  have hT0 : (0 : Int) ≤ rowLen * nRows := by nlinarith
  have haOffV := alignedOffN_lt hs hW hsW haddr
  have htailV := alignedEndE_tail_lt hT0 hs hW hsW haddr
  have hVM : W / s ≤ max 32 W := le_trans (Nat.div_le_self W s) (le_max_right 32 W)
  refine ⟨?_, ?_, ?_, ?_⟩
  · have h1 : alignedOffN s W addr < max 32 W := lt_of_lt_of_le haOffV hVM
    exact_mod_cast h1
  · have h1 : ((W / s : Nat) : Int) ≤ ((max 32 W : Nat) : Int) := by exact_mod_cast hVM
    omega
  · intro blk tid
    unfold vecColsTailThread
    dsimp only
    refine le_trans (vectorColsLoop_length op inF vecs rowLen 1 _ _ _ _ _ [] true) ?_
    split_ifs <;> simp
  · intro hdeg i h0 hiT hreg
    have hoffM : ((alignedOffN s W addr : Nat) : Int) ≤ ((max 32 W : Nat) : Int) := by
      have h1 : alignedOffN s W addr ≤ max 32 W := le_of_lt (lt_of_lt_of_le haOffV hVM)
      exact_mod_cast h1
    have htailM : rowLen * nRows - alignedEndE s W addr (rowLen * nRows)
        ≤ ((max 32 W : Nat) : Int) := by
      have h1 : ((W / s : Nat) : Int) ≤ ((max 32 W : Nat) : Int) := by exact_mod_cast hVM
      omega
    exact tail_thread_unique op inF vecs hrow hoffM htailM hdeg i h0 hiT hreg

/-- Witness for C10 (the binder-free head-length bound, instantiated at scalar size 4,
vector width 16, an aligned pointer and a 2 by 2 matrix). -/
theorem tail_boundary_structure_witness :
    ((1 : Int) ≤ 2 ∧ (4 : Nat) ∣ 16)
    ∧ ((alignedOffN 4 16 0 : Nat) : Int) < ((max 32 16 : Nat) : Int) :=
  ⟨by decide, (@tail_boundary_structure Int (fun a _ => a) (fun i => i) [] 2 2 4 16 0
    (by norm_num) (by norm_num) (by norm_num) (by norm_num) (by norm_num) (by norm_num)).1⟩

end RaftLinewise
